import Mathlib

/-!
Shallow embedding of the file-comparator repository: row canonicalization,
multiset (bag) building and diffing, the LCS-based unified diff, the XML
record flattener, and the comparison orchestrator.

Strings are modelled as `List Char` (`Str`).  JavaScript's
`String.prototype.localeCompare` (used only as a sort comparator) is
modelled as lexicographic order on `List Char`; `toLowerCase` is modelled
as ASCII lowering.
-/

abbrev Str := List Char

/-- Horizontal whitespace recognised by the `[ \t]` character classes. -/
def isHWS (c : Char) : Bool := c = ' ' || c = '\t'

/-- Whitespace recognised by JavaScript's `\s` class and `String.trim`
(restricted to the ASCII range, which is all the repository exercises). -/
def jsWs (c : Char) : Bool :=
  c = ' ' || c = '\t' || c = '\n' || c = '\r' || c = '\x0b' || c = '\x0c'

/-- `s.replace(/\r\n?/g, '\n')`: normalize all newline variants to `'\n'`. -/
def normNewlines : Str → Str
  | [] => []
  | '\r' :: '\n' :: rest => '\n' :: normNewlines rest
  | '\r' :: rest => '\n' :: normNewlines rest
  | c :: rest => c :: normNewlines rest

/-- `s.replace(/[ \t]+$/g, '')`: remove a trailing run of spaces/tabs. -/
def trimTrailingHWS (s : Str) : Str :=
  (s.reverse.dropWhile isHWS).reverse

/-- Worker for `collapseHWS`: the flag records whether the scan is inside a
run of spaces/tabs whose replacement space has already been emitted. -/
def collapseHWSAux : Bool → Str → Str
  | _, [] => []
  | inRun, c :: rest =>
    if isHWS c then
      (if inRun then collapseHWSAux true rest else ' ' :: collapseHWSAux true rest)
    else c :: collapseHWSAux false rest

/-- `s.replace(/[ \t]+/g, ' ')`: collapse every run of spaces/tabs to one space. -/
def collapseHWS (s : Str) : Str := collapseHWSAux false s

/-- The ASCII uppercase/lowercase pairs of `toLowerCase`. -/
def lowerPairs : List (Char × Char) :=
  [('A', 'a'), ('B', 'b'), ('C', 'c'), ('D', 'd'), ('E', 'e'), ('F', 'f'), ('G', 'g'), ('H', 'h'), ('I', 'i'), ('J', 'j'), ('K', 'k'), ('L', 'l'), ('M', 'm'), ('N', 'n'), ('O', 'o'), ('P', 'p'), ('Q', 'q'), ('R', 'r'), ('S', 's'), ('T', 't'), ('U', 'u'), ('V', 'v'), ('W', 'w'), ('X', 'x'), ('Y', 'y'), ('Z', 'z')]

/-- ASCII model of `String.prototype.toLowerCase`, applied characterwise. -/
def jsToLower (c : Char) : Char :=
  ((lowerPairs.find? (fun p => p.1 = c)).map Prod.snd).getD c

/-- The canonicalization options `{ trim, collapseWhitespace, caseSensitive }`. -/
structure CanonOpts where
  trim : Bool
  collapseWhitespace : Bool
  caseSensitive : Bool
deriving DecidableEq, Repr

/-- `canonicalizeRow` from `script.js`: newline normalization, optional
trailing-space trim, optional whitespace collapse, optional lowercasing. -/
def canonicalizeRow (s : Str) (o : CanonOpts) : Str :=
  let out := normNewlines s
  let out := if o.trim then trimTrailingHWS out else out
  let out := if o.collapseWhitespace then collapseHWS out else out
  if o.caseSensitive then out else out.map jsToLower

/-- A frequency bag, modelled as the insertion-ordered association list
underlying the JavaScript `Map`. -/
abbrev Bag := List (Str × Nat)

/-- `bag.get(k) || 0`: the count of `k` (first matching entry, `0` if absent). -/
def bagGet : Bag → Str → Nat
  | [], _ => 0
  | (k', n) :: rest, k => if k' = k then n else bagGet rest k

/-- `bag.set(k, (bag.get(k) || 0) + 1)`: increment `k`'s entry in place,
appending a fresh entry at the end when `k` is new. -/
def bagInc : Bag → Str → Bag
  | [], k => [(k, 1)]
  | (k', n) :: rest, k =>
    if k' = k then (k', n + 1) :: rest else (k', n) :: bagInc rest k

/-- `toBag(strings, opts)`: canonicalize each line and count occurrences. -/
def toBag (strings : List Str) (o : CanonOpts) : Bag :=
  strings.foldl (fun bag s => bagInc bag (canonicalizeRow s o)) []

/-- The keys of a bag, in insertion order. -/
def bagKeys (b : Bag) : List Str := b.map Prod.fst

/-- Worker for `dedupFirst`: `seen` holds the keys already emitted. -/
def dedupFirstAux (seen : List Str) : List Str → List Str
  | [] => []
  | k :: rest =>
    if k ∈ seen then dedupFirstAux seen rest
    else k :: dedupFirstAux (k :: seen) rest

/-- `new Set([...keysA, ...keysB])` iteration order: first occurrences kept. -/
def dedupFirst (l : List Str) : List Str := dedupFirstAux [] l

/-- An entry of `freqDelta`: a key present in both bags with distinct counts. -/
structure FreqEntry where
  value : Str
  a : Nat
  b : Nat
  delta : Int
deriving DecidableEq, Repr

/-- The result record of `diffBags`. -/
structure DiffResult where
  onlyInA : List (Str × Nat)
  onlyInB : List (Str × Nat)
  freqDelta : List FreqEntry
deriving DecidableEq, Repr

/-- Sort order of `onlyInA`/`onlyInB`: ascending by key
(`localeCompare` modelled as lexicographic order). -/
def valLe (x y : Str × Nat) : Prop := x.1 ≤ y.1

instance : DecidableRel valLe := fun x y => inferInstanceAs (Decidable (x.1 ≤ y.1))

instance : IsTotal (Str × Nat) valLe := ⟨fun a b => le_total a.1 b.1⟩

instance : IsTrans (Str × Nat) valLe := ⟨fun _ _ _ h h' => le_trans h h'⟩

/-- Sort order of `freqDelta`: descending absolute delta, ties broken by key. -/
def fdLe (x y : FreqEntry) : Prop :=
  y.delta.natAbs < x.delta.natAbs ∨ (x.delta.natAbs = y.delta.natAbs ∧ x.value ≤ y.value)

instance : DecidableRel fdLe := fun x y =>
  inferInstanceAs (Decidable (_ ∨ _))

instance : IsTotal FreqEntry fdLe := by
  constructor
  intro a b
  rcases lt_trichotomy a.delta.natAbs b.delta.natAbs with h | h | h
  · exact Or.inr (Or.inl h)
  · rcases le_total a.value b.value with h' | h'
    · exact Or.inl (Or.inr ⟨h, h'⟩)
    · exact Or.inr (Or.inr ⟨h.symm, h'⟩)
  · exact Or.inl (Or.inl h)

instance : IsTrans FreqEntry fdLe := by
  constructor
  intro a b c hab hbc
  rcases hab with h1 | ⟨h1, h1'⟩ <;> rcases hbc with h2 | ⟨h2, h2'⟩
  · exact Or.inl (lt_trans h2 h1)
  · exact Or.inl (h2 ▸ h1)
  · exact Or.inl (lt_of_lt_of_le h2 (le_of_eq h1.symm))
  · exact Or.inr ⟨h1.trans h2, h1'.trans h2'⟩

/-- `diffBags(bagA, bagB)`: classify every key of the union into
`onlyInA`, `onlyInB`, `freqDelta` (or drop it when counts agree), then sort. -/
def diffBags (bagA bagB : Bag) : DiffResult :=
  let keys := dedupFirst (bagKeys bagA ++ bagKeys bagB)
  let onlyA := keys.filterMap fun k =>
    if bagGet bagA k ≠ 0 ∧ bagGet bagB k = 0 then some (k, bagGet bagA k) else none
  let onlyB := keys.filterMap fun k =>
    if bagGet bagA k = 0 ∧ bagGet bagB k ≠ 0 then some (k, bagGet bagB k) else none
  let fd := keys.filterMap fun k =>
    if bagGet bagA k ≠ 0 ∧ bagGet bagB k ≠ 0 ∧ bagGet bagA k ≠ bagGet bagB k then
      some ⟨k, bagGet bagA k, bagGet bagB k, (bagGet bagA k : Int) - bagGet bagB k⟩
    else none
  ⟨List.insertionSort valLe onlyA, List.insertionSort valLe onlyB,
    List.insertionSort fdLe fd⟩

/-- The `identical` flag of the multiset summary: all three lists empty. -/
def msIdentical (d : DiffResult) : Bool :=
  d.onlyInA = [] ∧ d.onlyInB = [] ∧ d.freqDelta = []

/-- `t.split(/\r?\n/)`: split on `\r\n` or `\n` (a lone `\r` does not split). -/
def splitCRLF : Str → List Str
  | [] => [[]]
  | '\r' :: '\n' :: rest => [] :: splitCRLF rest
  | '\n' :: rest => [] :: splitCRLF rest
  | c :: rest =>
    match splitCRLF rest with
    | [] => [[c]]
    | h :: t => (c :: h) :: t

/-- `s.split('\n')`. -/
def splitNL : Str → List Str
  | [] => [[]]
  | '\n' :: rest => [] :: splitNL rest
  | c :: rest =>
    match splitNL rest with
    | [] => [[c]]
    | h :: t => (c :: h) :: t

/-- Remove a single trailing empty element
(`arr.length && arr[arr.length-1]==='' ? arr.slice(0,-1) : arr`). -/
def pruneTrailingEmpty (l : List Str) : List Str :=
  if l ≠ [] ∧ l.getLast? = some [] then l.dropLast else l

/-- The summary record of `compareTextAsMultisets`. -/
structure MsSummary where
  totalA : Nat
  totalB : Nat
  uniqueA : Nat
  uniqueB : Nat
  onlyInA : Nat
  onlyInB : Nat
  freqDelta : Nat
  identical : Bool
deriving DecidableEq, Repr

structure MsResult where
  summary : MsSummary
  details : DiffResult
deriving DecidableEq, Repr

/-- `compareTextAsMultisets(textA, textB, opts)`. -/
def compareTextAsMultisets (textA textB : Str) (o : CanonOpts) : MsResult :=
  let A := pruneTrailingEmpty (splitCRLF textA)
  let B := pruneTrailingEmpty (splitCRLF textB)
  let bagA := toBag A o
  let bagB := toBag B o
  let diff := diffBags bagA bagB
  { summary :=
    { totalA := A.length, totalB := B.length
      uniqueA := bagA.length, uniqueB := bagB.length
      onlyInA := diff.onlyInA.length, onlyInB := diff.onlyInB.length
      freqDelta := diff.freqDelta.length
      identical := diff.onlyInA = [] ∧ diff.onlyInB = [] ∧ diff.freqDelta = [] }
    details := diff }

/-- The order-sensitive identity check of `renderOrderSensitive`:
raw string equality after newline normalization. -/
def orderSensitiveIdentical (aText bText : Str) : Bool :=
  normNewlines aText = normNewlines bText

/-- The DP table of `lcs`: `lcsDP a b i j` is `dp[i][j]`, the LCS length of
the first `i` lines of `a` and the first `j` lines of `b`. -/
def lcsDP (a b : List Str) : Nat → Nat → Nat
  | 0, _ => 0
  | _ + 1, 0 => 0
  | i + 1, j + 1 =>
    if a.getD i [] = b.getD j [] then lcsDP a b i j + 1
    else max (lcsDP a b i (j + 1)) (lcsDP a b (i + 1) j)
termination_by i j => (i, j)

/-- The backtracking pass of `lcs`, from table position `(i, j)`; the
push-then-reverse of the source appears here as appending at the end. -/
def lcsBT (a b : List Str) : Nat → Nat → List Str
  | 0, _ => []
  | _ + 1, 0 => []
  | i + 1, j + 1 =>
    if a.getD i [] = b.getD j [] then lcsBT a b i j ++ [a.getD i []]
    else if lcsDP a b i (j + 1) ≥ lcsDP a b (i + 1) j then lcsBT a b i (j + 1)
    else lcsBT a b (i + 1) j
termination_by i j => (i, j)

/-- `lcs(a, b)`: longest common subsequence of two line sequences. -/
def lcs (a b : List Str) : List Str := lcsBT a b a.length b.length

/-- A line of a hunk, tagged with its leading character
(`' '` context, `'+'` added, `'-'` removed). -/
inductive TaggedLine where
  | ctx (s : Str)
  | add (s : Str)
  | del (s : Str)
deriving DecidableEq, Repr

/-- A hunk: 1-based start lines in A and B plus the tagged lines. -/
structure Hunk where
  aStart : Nat
  bStart : Nat
  lines : List TaggedLine
deriving DecidableEq, Repr

/-- Append a line to the open hunk (`cur.lines.push(...)`). -/
def pushLine (h : Hunk) (tl : TaggedLine) : Hunk :=
  { h with lines := h.lines ++ [tl] }

/-- The three-cursor walk of `unifiedDiff` over `A`, `B` and the common
subsequence `c`.  `fuel` bounds the number of iterations; the state in which
the loop body makes no progress (an infinite loop in the source) yields
`none`, as does fuel exhaustion. -/
def diffLoop (A B c : List Str) : Nat → Nat → Nat → Nat → Option Hunk → Option (List Hunk)
  | 0, _, _, _, _ => none
  | fuel + 1, i, j, k, cur =>
    if i < A.length ∨ j < B.length then
      if k < c.length ∧ i < A.length ∧ j < B.length ∧
          A.getD i [] = c.getD k [] ∧ B.getD j [] = c.getD k [] then
        diffLoop A B c fuel (i + 1) (j + 1) (k + 1)
          (cur.map (fun h => pushLine h (.ctx (A.getD i []))))
      else
        let h0 := cur.getD ⟨i + 1, j + 1, []⟩
        if j < B.length ∧ (c.length ≤ k ∨ B.getD j [] ≠ c.getD k []) then
          diffLoop A B c fuel i (j + 1) k (some (pushLine h0 (.add (B.getD j []))))
        else if i < A.length ∧ (c.length ≤ k ∨ A.getD i [] ≠ c.getD k []) then
          diffLoop A B c fuel (i + 1) j k (some (pushLine h0 (.del (A.getD i []))))
        else none
    else
      some (match cur with | none => [] | some h => [h])

/-- The line sequence `unifiedDiff` derives from a text: newline-normalized,
split on `'\n'`, with a single trailing empty line popped. -/
def diffLines (t : Str) : List Str :=
  pruneTrailingEmpty (splitNL (normNewlines t))

/-- The hunks of `unifiedDiff(aText, bText)` (`none` models the source's
non-termination, which `diffLoop_total` rules out). -/
def unifiedDiffHunks (aText bText : Str) : Option (List Hunk) :=
  let A := diffLines aText
  let B := diffLines bText
  diffLoop A B (lcs A B) (A.length + B.length + 1) 0 0 0 none

/-- Apply the tagged lines of a hunk to the suffix of A it covers: context
lines must match and are kept, `'-'` lines must match and are dropped, `'+'`
lines are inserted.  Returns the emitted lines and the number of lines of A
consumed. -/
def applyLines : List Str → List TaggedLine → Option (List Str × Nat)
  | _, [] => some ([], 0)
  | as, .ctx s :: ls =>
    match as with
    | a :: as' =>
      if a = s then (applyLines as' ls).map (fun p => (s :: p.1, p.2 + 1)) else none
    | [] => none
  | as, .add s :: ls => (applyLines as ls).map (fun p => (s :: p.1, p.2))
  | as, .del s :: ls =>
    match as with
    | a :: as' =>
      if a = s then (applyLines as' ls).map (fun p => (p.1, p.2 + 1)) else none
    | [] => none

/-- Apply a list of hunks (1-based `aStart` positions) to `A`, starting at
0-based position `pos`: lines of A outside hunks are copied verbatim. -/
def applyHunks (A : List Str) : Nat → List Hunk → Option (List Str)
  | pos, [] => some (A.drop pos)
  | pos, h :: hs =>
    if pos + 1 ≤ h.aStart then
      match applyLines (A.drop (h.aStart - 1)) h.lines with
      | some (out, consumed) =>
        (applyHunks A (h.aStart - 1 + consumed) hs).map
          (fun rest => (A.drop pos).take (h.aStart - 1 - pos) ++ out ++ rest)
      | none => none
    else none

/-- A node of a parsed XML document (the tree handed back by the external
parser): an element with name, attributes and children, or a text node. -/
inductive XNode where
  | elem (name : Str) (attrs : List (Str × Str)) (children : List XNode)
  | text (t : Str)

/-- The options of `recordsToCanonicalStrings` (the record selector aside). -/
structure XmlOpts where
  includeText : Bool
  includeAttributes : Bool
  ignoreEmptyText : Bool
  collapseInnerWhitespace : Bool
deriving DecidableEq, Repr

/-- Defaults: all four flags are true. -/
def defaultXmlOpts : XmlOpts := ⟨true, true, true, true⟩

/-- Worker for `collapseAllWS`, as for `collapseHWSAux`. -/
def collapseAllWSAux : Bool → Str → Str
  | _, [] => []
  | inRun, c :: rest =>
    if jsWs c then
      (if inRun then collapseAllWSAux true rest else ' ' :: collapseAllWSAux true rest)
    else c :: collapseAllWSAux false rest

/-- `t.replace(/\s+/g, ' ')`: collapse every whitespace run to one space. -/
def collapseAllWS (s : Str) : Str := collapseAllWSAux false s

/-- `String.prototype.trim`: strip leading and trailing whitespace. -/
def jsTrim (s : Str) : Str :=
  ((s.dropWhile jsWs).reverse.dropWhile jsWs).reverse

/-- One escaped character of a JSON string literal (`JSON.stringify`). -/
def jsonEscapeChar (c : Char) : Str :=
  if c = '"' then ['\\', '"']
  else if c = '\\' then ['\\', '\\']
  else if c = '\n' then ['\\', 'n']
  else if c = '\r' then ['\\', 'r']
  else if c = '\t' then ['\\', 't']
  else [c]

/-- `q(v)`: quote a value as a JSON string literal. -/
def q (v : Str) : Str := '"' :: (v.flatMap jsonEscapeChar ++ ['"'])

/-- `node.getAttribute(name)` (first matching attribute, `''` if absent). -/
def getAttr (attrs : List (Str × Str)) (name : Str) : Str :=
  ((attrs.find? (fun a => a.1 = name)).map Prod.snd).getD []

/-- The `path/@name=q(value)` entries a node's attributes contribute,
names sorted. -/
def attrEntries (o : XmlOpts) (path : Str) (attrs : List (Str × Str)) : List Str :=
  if o.includeAttributes then
    (List.insertionSort (· ≤ ·) (attrs.map Prod.fst)).map
      (fun name => path ++ ('/' :: '@' :: name) ++ ('=' :: q (getAttr attrs name)))
  else []

/-- The `path/#text=q(t)` entry a text child contributes, if any. -/
def textEntry (o : XmlOpts) (path : Str) (t : Str) : List Str :=
  if o.includeText then
    if o.ignoreEmptyText ∧ t.all jsWs then []
    else
      let t1 := if o.collapseInnerWhitespace then collapseAllWS t else t
      let t2 := jsTrim t1
      if o.ignoreEmptyText ∧ t2 = [] then []
      else [path ++ ('/' :: '#' :: "text=".toList) ++ q t2]
  else []

mutual

/-- `flattenNode` applied to one child of a node whose flattening path is
`path`: elements recurse with an extended path, text nodes emit at `path`. -/
def flattenChild (o : XmlOpts) (path : Str) : XNode → List Str
  | .text t => textEntry o path t
  | .elem n attrs cs =>
    attrEntries o (path ++ '/' :: n) attrs ++ flattenChildren o (path ++ '/' :: n) cs

/-- `flattenNode`'s loop over a child list. -/
def flattenChildren (o : XmlOpts) (path : Str) : List XNode → List Str
  | [] => []
  | c :: cs => flattenChild o path c ++ flattenChildren o path cs

end

/-- The canonical string of one record element: sorted flattened parts after
a header of the tag name and its sorted attributes. -/
def canonicalRecordString (o : XmlOpts) : XNode → Str
  | .text _ => []
  | .elem n attrs cs =>
    let parts := List.insertionSort (· ≤ ·) (flattenChild o [] (.elem n attrs cs))
    let headerAttrs := List.insertionSort (· ≤ ·)
      (attrs.map (fun a => a.1 ++ '=' :: q a.2))
    let header := '<' :: n ++
      (if headerAttrs ≠ [] then ' ' :: (List.intercalate [' '] headerAttrs) else []) ++ ['>']
    header ++ '|' :: List.intercalate ['|'] parts

mutual

/-- `doc.querySelectorAll(recordSelector)` for a tag-name selector:
all matching elements in document (pre-)order. -/
def selectRecords (sel : Str) : XNode → List XNode
  | .text _ => []
  | .elem n attrs cs =>
    (if n = sel then [.elem n attrs cs] else []) ++ selectRecordsL sel cs

/-- `selectRecords` over a list of siblings. -/
def selectRecordsL (sel : Str) : List XNode → List XNode
  | [] => []
  | c :: cs => selectRecords sel c ++ selectRecordsL sel cs

end

/-- `recordsToCanonicalStrings` over an already-parsed document tree. -/
def recordsToCanonicalStrings (o : XmlOpts) (sel : Str) (doc : XNode) : List Str :=
  (selectRecords sel doc).map (canonicalRecordString o)

/-- `looksLikeXml(text)` of the orchestrator script:
the regex prefix test `/^\s*<[^>]+>/.test(text)`. -/
def looksLikeXml (s : Str) : Bool :=
  match s.dropWhile jsWs with
  | '<' :: r =>
    let t := r.takeWhile (fun c => c ≠ '>')
    !t.isEmpty && decide (t.length < r.length)
  | _ => false

/-- `looksLikeXML(text)` of the legacy comparator script:
`text.trim().startsWith('<') && text.trim().endsWith('>')`. -/
def looksLikeXML (s : Str) : Bool :=
  (jsTrim s).head? = some '<' && (jsTrim s).getLast? = some '>'

/-- The comparison path `runComparison` selects. -/
inductive CompareMode where
  | xmlRecords
  | lineMultiset
  | orderSensitive
deriving DecidableEq, Repr

/-- The mode-selection logic of `runComparison`: order-insensitive mode uses
the XML record path exactly when both inputs pass `looksLikeXml`. -/
def chooseMode (a b : Str) (ignoreOrder : Bool) : CompareMode :=
  if ignoreOrder then
    if looksLikeXml a && looksLikeXml b then .xmlRecords else .lineMultiset
  else .orderSensitive

/-- The canonicalization options of the XML fallback call
`compareTextAsMultisets(xmlA, xmlB, { trim: true })`: the compat script
coerces the two absent options to `false`. -/
def xmlFallbackOpts : CanonOpts := ⟨true, false, false⟩

/-- The canonicalization options applied to canonical record strings. -/
def xmlRecordOpts : CanonOpts := ⟨true, false, true⟩

/-- `compareXmlRecordsAsMultisets`, with the optional flattener capability
(`window.XMLFmt.recordsToCanonicalStrings`) passed explicitly: `none` models
an absent formatter, `Except.error` models a thrown parse/flatten error.
Every failure degrades to line-based multiset comparison of the raw texts. -/
def compareXmlRecordsAsMultisets (fmt : Option (Str → Except Str (List Str)))
    (xmlA xmlB : Str) : MsResult :=
  match fmt with
  | some f =>
    match f xmlA with
    | .ok recA =>
      match f xmlB with
      | .ok recB =>
        let bagA := toBag recA xmlRecordOpts
        let bagB := toBag recB xmlRecordOpts
        let diff := diffBags bagA bagB
        { summary :=
          { totalA := recA.length, totalB := recB.length
            uniqueA := bagA.length, uniqueB := bagB.length
            onlyInA := diff.onlyInA.length, onlyInB := diff.onlyInB.length
            freqDelta := diff.freqDelta.length
            identical := diff.onlyInA = [] ∧ diff.onlyInB = [] ∧ diff.freqDelta = [] }
          details := diff }
      | .error _ => compareTextAsMultisets xmlA xmlB xmlFallbackOpts
    | .error _ => compareTextAsMultisets xmlA xmlB xmlFallbackOpts
  | none => compareTextAsMultisets xmlA xmlB xmlFallbackOpts

/-- Exchange the roles of the two bags in a `freqDelta` entry. -/
def fdSwap (e : FreqEntry) : FreqEntry := ⟨e.value, e.b, e.a, -e.delta⟩

/-! ## Sorting: sorted lists that are permutations of each other coincide -/

/-- `eq_of_perm_of_sorted` with antisymmetry required only on the members of
the lists: exactly the situation of `diffBags`, whose entry lists carry
pairwise distinct keys. -/
theorem sorted_eq_of_perm_antisymm_mem {α : Type} {r : α → α → Prop} :
    ∀ {l₁ l₂ : List α}, l₁.Perm l₂ → l₁.Sorted r → l₂.Sorted r →
      (∀ a ∈ l₁, ∀ b ∈ l₁, r a b → r b a → a = b) → l₁ = l₂ := by
  intro l₁
  induction l₁ with
  | nil =>
    intro l₂ hp _ _ _
    exact (hp.symm.eq_nil).symm
  | cons a t₁ ih =>
    intro l₂ hp hs₁ hs₂ hanti
    cases l₂ with
    | nil => exact absurd hp.eq_nil (by simp)
    | cons b t₂ =>
      have hab : a = b := by
        by_contra hne
        have hamem : a ∈ b :: t₂ := hp.mem_iff.mp (by simp)
        have hbmem : b ∈ a :: t₁ := hp.symm.mem_iff.mp (by simp)
        have ha2 : a ∈ t₂ := by
          rcases List.mem_cons.mp hamem with h | h
          · exact absurd h hne
          · exact h
        have hb1 : b ∈ t₁ := by
          rcases List.mem_cons.mp hbmem with h | h
          · exact absurd h.symm hne
          · exact h
        have hrab : r a b := List.rel_of_sorted_cons hs₁ b hb1
        have hrba : r b a := List.rel_of_sorted_cons hs₂ a ha2
        exact hne (hanti a (by simp) b (by simp [hb1]) hrab hrba)
      subst hab
      have htail : t₁.Perm t₂ := hp.cons_inv
      have := ih htail hs₁.of_cons hs₂.of_cons
        (fun x hx y hy => hanti x (by simp [hx]) y (by simp [hy]))
      rw [this]

/-- Insertion sort is determined by the multiset being sorted, as long as
the order is antisymmetric on its members. -/
theorem insertionSort_eq_of_perm {α : Type} {r : α → α → Prop} [DecidableRel r]
    [IsTotal α r] [IsTrans α r] {l₁ l₂ : List α} (hp : l₁.Perm l₂)
    (hanti : ∀ a ∈ l₁, ∀ b ∈ l₁, r a b → r b a → a = b) :
    List.insertionSort r l₁ = List.insertionSort r l₂ := by
  apply sorted_eq_of_perm_antisymm_mem
    (((List.perm_insertionSort r l₁).trans hp).trans (List.perm_insertionSort r l₂).symm)
    (List.sorted_insertionSort r l₁) (List.sorted_insertionSort r l₂)
  intro a ha b hb
  exact hanti a ((List.perm_insertionSort r l₁).mem_iff.mp ha)
    b ((List.perm_insertionSort r l₁).mem_iff.mp hb)

/-! ## Bags: counts, keys and membership -/

theorem bagGet_bagInc (b : Bag) (k k' : Str) :
    bagGet (bagInc b k) k' = if k = k' then bagGet b k' + 1 else bagGet b k' := by
  induction b with
  | nil => by_cases h : k = k' <;> simp [bagInc, bagGet, h]
  | cons e rest ih =>
    obtain ⟨a, n⟩ := e
    by_cases hak : a = k
    · subst hak
      by_cases hk' : a = k' <;> simp [bagInc, bagGet, hk']
    · by_cases hk' : a = k'
      · subst hk'
        have hka : ¬ k = a := fun h => hak h.symm
        simp [bagInc, bagGet, hak, hka]
      · simp [bagInc, bagGet, hak, hk', ih]

theorem bagKeys_bagInc_mem (b : Bag) (k : Str) (h : k ∈ bagKeys b) :
    bagKeys (bagInc b k) = bagKeys b := by
  induction b with
  | nil => simp [bagKeys] at h
  | cons e rest ih =>
    obtain ⟨a, n⟩ := e
    by_cases hak : a = k
    · subst hak
      simp [bagInc, bagKeys]
    · have hrest : k ∈ bagKeys rest := by
        rcases List.mem_cons.mp h with h' | h'
        · exact absurd h'.symm hak
        · exact h'
      have ih' := ih hrest
      simp only [bagInc, if_neg hak]
      simpa [bagKeys] using ih'

theorem bagKeys_bagInc_not_mem (b : Bag) (k : Str) (h : k ∉ bagKeys b) :
    bagKeys (bagInc b k) = bagKeys b ++ [k] := by
  induction b with
  | nil => simp [bagInc, bagKeys]
  | cons e rest ih =>
    obtain ⟨a, n⟩ := e
    have hak : a ≠ k := by
      intro h'
      exact h (by simp [bagKeys, h'])
    have hrest : k ∉ bagKeys rest := fun h' => h (by simp [bagKeys] at h' ⊢; right; exact h')
    have ih' := ih hrest
    simp only [bagInc, if_neg hak]
    simpa [bagKeys] using ih'

theorem bagGet_toBagFold (l : List Str) (o : CanonOpts) :
    ∀ (b : Bag) (k : Str),
      bagGet (l.foldl (fun bag s => bagInc bag (canonicalizeRow s o)) b) k
        = bagGet b k + (l.map (canonicalizeRow · o)).countP (fun x => decide (x = k)) := by
  induction l with
  | nil => simp
  | cons s rest ih =>
    intro b k
    simp only [List.foldl_cons, List.map_cons, ih, bagGet_bagInc, List.countP_cons]
    by_cases h : canonicalizeRow s o = k
    · simp [h]
      omega
    · simp [h]

theorem bagGet_toBag (l : List Str) (o : CanonOpts) (k : Str) :
    bagGet (toBag l o) k = (l.map (canonicalizeRow · o)).countP (fun x => decide (x = k)) := by
  simpa [bagGet] using bagGet_toBagFold l o [] k

theorem mem_bagKeys_toBagFold (l : List Str) (o : CanonOpts) :
    ∀ (b : Bag) (k : Str),
      (k ∈ bagKeys (l.foldl (fun bag s => bagInc bag (canonicalizeRow s o)) b)
        ↔ k ∈ bagKeys b ∨ k ∈ l.map (canonicalizeRow · o)) := by
  induction l with
  | nil => simp
  | cons s rest ih =>
    intro b k
    simp only [List.foldl_cons, List.map_cons, ih, List.mem_cons]
    by_cases hmem : canonicalizeRow s o ∈ bagKeys b
    · rw [bagKeys_bagInc_mem _ _ hmem]
      by_cases hck : canonicalizeRow s o = k
      · subst hck
        tauto
      · tauto
    · rw [bagKeys_bagInc_not_mem _ _ hmem]
      simp only [List.mem_append, List.mem_singleton]
      tauto

theorem mem_bagKeys_toBag (l : List Str) (o : CanonOpts) (k : Str) :
    k ∈ bagKeys (toBag l o) ↔ k ∈ l.map (canonicalizeRow · o) := by
  simpa [bagKeys] using mem_bagKeys_toBagFold l o [] k

theorem nodup_bagKeys_toBagFold (l : List Str) (o : CanonOpts) :
    ∀ (b : Bag), (bagKeys b).Nodup →
      (bagKeys (l.foldl (fun bag s => bagInc bag (canonicalizeRow s o)) b)).Nodup := by
  induction l with
  | nil => simpa
  | cons s rest ih =>
    intro b hb
    simp only [List.foldl_cons]
    apply ih
    by_cases hmem : canonicalizeRow s o ∈ bagKeys b
    · rwa [bagKeys_bagInc_mem _ _ hmem]
    · rw [bagKeys_bagInc_not_mem _ _ hmem]
      simp [List.nodup_append, hb, hmem]

theorem nodup_bagKeys_toBag (l : List Str) (o : CanonOpts) :
    (bagKeys (toBag l o)).Nodup := by
  simpa [bagKeys] using nodup_bagKeys_toBagFold l o [] (by simp [bagKeys])

theorem mem_dedupFirstAux (k : Str) :
    ∀ (l seen : List Str), k ∈ dedupFirstAux seen l ↔ k ∈ l ∧ k ∉ seen := by
  intro l
  induction l with
  | nil => simp [dedupFirstAux]
  | cons a rest ih =>
    intro seen
    by_cases hmem : a ∈ seen
    · rw [dedupFirstAux, if_pos hmem]
      rw [ih seen]
      constructor
      · rintro ⟨h1, h2⟩
        exact ⟨List.mem_cons_of_mem a h1, h2⟩
      · rintro ⟨h1, h2⟩
        rcases List.mem_cons.mp h1 with h | h
        · exact absurd (h ▸ hmem) h2
        · exact ⟨h, h2⟩
    · rw [dedupFirstAux, if_neg hmem]
      rw [List.mem_cons, ih (a :: seen)]
      constructor
      · rintro (h | ⟨h1, h2⟩)
        · exact ⟨by simp [h], h ▸ hmem⟩
        · exact ⟨List.mem_cons_of_mem a h1, fun hk => h2 (List.mem_cons_of_mem a hk)⟩
      · rintro ⟨h1, h2⟩
        by_cases hka : k = a
        · exact Or.inl hka
        · rcases List.mem_cons.mp h1 with h | h
          · exact absurd h hka
          · exact Or.inr ⟨h, by simp [hka, h2]⟩

theorem nodup_dedupFirstAux :
    ∀ (l seen : List Str), (dedupFirstAux seen l).Nodup := by
  intro l
  induction l with
  | nil => simp [dedupFirstAux]
  | cons a rest ih =>
    intro seen
    by_cases hmem : a ∈ seen
    · rw [dedupFirstAux, if_pos hmem]
      exact ih seen
    · rw [dedupFirstAux, if_neg hmem]
      refine List.nodup_cons.mpr ⟨?_, ih (a :: seen)⟩
      intro hmem'
      exact ((mem_dedupFirstAux a rest (a :: seen)).mp hmem').2 (by simp)

theorem mem_dedupFirst (k : Str) (l : List Str) : k ∈ dedupFirst l ↔ k ∈ l := by
  simp [dedupFirst, mem_dedupFirstAux]

theorem nodup_dedupFirst (l : List Str) : (dedupFirst l).Nodup :=
  nodup_dedupFirstAux l []

/-- A key with a positive count is among the bag's keys. -/
theorem mem_bagKeys_of_bagGet_ne_zero {b : Bag} {k : Str} (h : bagGet b k ≠ 0) :
    k ∈ bagKeys b := by
  induction b with
  | nil => simp [bagGet] at h
  | cons e rest ih =>
    obtain ⟨a, n⟩ := e
    by_cases hak : a = k
    · simp [bagKeys, hak]
    · simp [bagGet, hak] at h
      simp [bagKeys]
      right
      simpa [bagKeys] using ih h

theorem bagKeys_cons (a : Str) (n : Nat) (rest : Bag) :
    bagKeys ((a, n) :: rest) = a :: bagKeys rest := rfl

/-- In a bag with pairwise distinct keys, membership of an entry is exactly
key membership plus the key's count. -/
theorem mem_bag_iff_of_nodup :
    ∀ {b : Bag}, (bagKeys b).Nodup → ∀ (e : Str × Nat),
      (e ∈ b ↔ e.1 ∈ bagKeys b ∧ bagGet b e.1 = e.2)
  | [], _, e => by simp [bagKeys, bagGet]
  | (a, n) :: rest, hb, e => by
    rw [bagKeys_cons] at hb ⊢
    have hnotin : a ∉ bagKeys rest := (List.nodup_cons.mp hb).1
    have hnodup : (bagKeys rest).Nodup := (List.nodup_cons.mp hb).2
    rw [List.mem_cons, mem_bag_iff_of_nodup hnodup e, List.mem_cons]
    constructor
    · rintro (h | ⟨h1, h2⟩)
      · subst h
        exact ⟨Or.inl rfl, by simp [bagGet]⟩
      · have hne : a ≠ e.1 := fun hc => hnotin (hc ▸ h1)
        exact ⟨Or.inr h1, by simp [bagGet, hne, h2]⟩
    · rintro ⟨h1, h2⟩
      by_cases hae : a = e.1
      · left
        obtain ⟨e1, e2⟩ := e
        simp only at hae
        subst hae
        simp [bagGet] at h2
        simp [h2]
      · right
        have h1' : e.1 ∈ bagKeys rest := by
          rcases h1 with h | h
          · exact absurd h.symm hae
          · exact h
        exact ⟨h1', by simpa [bagGet, hae] using h2⟩

/-! ## diffBags: membership characterizations -/

theorem mem_onlyInA_diffBags (A B : Bag) (k : Str) (c : Nat) :
    (k, c) ∈ (diffBags A B).onlyInA ↔
      bagGet A k ≠ 0 ∧ bagGet B k = 0 ∧ c = bagGet A k := by
  simp only [diffBags]
  rw [(List.perm_insertionSort valLe _).mem_iff, List.mem_filterMap]
  constructor
  · rintro ⟨a, ha, hfa⟩
    split at hfa
    next hcond =>
      obtain ⟨h1, h2⟩ := hcond
      simp only [Option.some.injEq, Prod.mk.injEq] at hfa
      obtain ⟨rfl, hc⟩ := hfa
      exact ⟨h1, h2, hc.symm⟩
    next => exact absurd hfa (by simp)
  · rintro ⟨h1, h2, rfl⟩
    refine ⟨k, ?_, ?_⟩
    · rw [mem_dedupFirst]
      exact List.mem_append.mpr (Or.inl (mem_bagKeys_of_bagGet_ne_zero h1))
    · rw [if_pos ⟨h1, h2⟩]

theorem mem_onlyInB_diffBags (A B : Bag) (k : Str) (c : Nat) :
    (k, c) ∈ (diffBags A B).onlyInB ↔
      bagGet A k = 0 ∧ bagGet B k ≠ 0 ∧ c = bagGet B k := by
  simp only [diffBags]
  rw [(List.perm_insertionSort valLe _).mem_iff, List.mem_filterMap]
  constructor
  · rintro ⟨a, ha, hfa⟩
    split at hfa
    next hcond =>
      obtain ⟨h1, h2⟩ := hcond
      simp only [Option.some.injEq, Prod.mk.injEq] at hfa
      obtain ⟨rfl, hc⟩ := hfa
      exact ⟨h1, h2, hc.symm⟩
    next => exact absurd hfa (by simp)
  · rintro ⟨h1, h2, rfl⟩
    refine ⟨k, ?_, ?_⟩
    · rw [mem_dedupFirst]
      exact List.mem_append.mpr (Or.inr (mem_bagKeys_of_bagGet_ne_zero h2))
    · rw [if_pos ⟨h1, h2⟩]

theorem mem_freqDelta_diffBags (A B : Bag) (e : FreqEntry) :
    e ∈ (diffBags A B).freqDelta ↔
      bagGet A e.value ≠ 0 ∧ bagGet B e.value ≠ 0 ∧
      bagGet A e.value ≠ bagGet B e.value ∧
      e.a = bagGet A e.value ∧ e.b = bagGet B e.value ∧
      e.delta = (bagGet A e.value : Int) - bagGet B e.value := by
  simp only [diffBags]
  rw [(List.perm_insertionSort fdLe _).mem_iff, List.mem_filterMap]
  constructor
  · rintro ⟨a, ha, hfa⟩
    split at hfa
    next hcond =>
      obtain ⟨h1, h2, h3⟩ := hcond
      simp only [Option.some.injEq] at hfa
      subst hfa
      exact ⟨h1, h2, h3, rfl, rfl, rfl⟩
    next => exact absurd hfa (by simp)
  · rintro ⟨h1, h2, h3, ha, hb, hd⟩
    refine ⟨e.value, ?_, ?_⟩
    · rw [mem_dedupFirst]
      exact List.mem_append.mpr (Or.inl (mem_bagKeys_of_bagGet_ne_zero h1))
    · rw [if_pos ⟨h1, h2, h3⟩]
      obtain ⟨v, a, b, d⟩ := e
      simp only at ha hb hd
      simp [ha, hb, hd]

/-- Members of the raw `onlyInA`/`onlyInB` lists are determined by their key. -/
theorem onlyList_antisymm (g : Str → Nat) (l : List (Str × Nat))
    (hchar : ∀ x ∈ l, x.2 = g x.1) :
    ∀ x ∈ l, ∀ y ∈ l, valLe x y → valLe y x → x = y := by
  intro x hx y hy hxy hyx
  have h1 : x.1 = y.1 := le_antisymm hxy hyx
  have h2 : x.2 = y.2 := by rw [hchar x hx, hchar y hy, h1]
  obtain ⟨x1, x2⟩ := x
  obtain ⟨y1, y2⟩ := y
  simp only at h1 h2
  simp [h1, h2]

/-- Members of the raw `freqDelta` list are determined by their key. -/
theorem fdList_antisymm (gA gB : Str → Nat) (l : List FreqEntry)
    (hchar : ∀ x ∈ l, x.a = gA x.value ∧ x.b = gB x.value ∧
      x.delta = (gA x.value : Int) - gB x.value) :
    ∀ x ∈ l, ∀ y ∈ l, fdLe x y → fdLe y x → x = y := by
  intro x hx y hy hxy hyx
  have h1 : x.value = y.value := by
    rcases hxy with h | ⟨_, h⟩ <;> rcases hyx with h' | ⟨heq, h'⟩
    · omega
    · omega
    · omega
    · exact le_antisymm h h'
  obtain ⟨hxa, hxb, hxd⟩ := hchar x hx
  obtain ⟨hya, hyb, hyd⟩ := hchar y hy
  obtain ⟨xv, xa, xb, xd⟩ := x
  obtain ⟨yv, ya, yb, yd⟩ := y
  simp only at h1 hxa hxb hxd hya hyb hyd
  subst h1
  simp [hxa, hxb, hxd, hya, hyb, hyd]

/-- `diffBags` is determined by the two bags' count functions and key sets. -/
theorem diffBags_congr {A A' B B' : Bag}
    (hA : ∀ k, bagGet A k = bagGet A' k) (hAk : ∀ k, k ∈ bagKeys A ↔ k ∈ bagKeys A')
    (hB : ∀ k, bagGet B k = bagGet B' k) (hBk : ∀ k, k ∈ bagKeys B ↔ k ∈ bagKeys B') :
    diffBags A B = diffBags A' B' := by
  have hkeys : (dedupFirst (bagKeys A ++ bagKeys B)).Perm
      (dedupFirst (bagKeys A' ++ bagKeys B')) := by
    rw [List.perm_ext_iff_of_nodup (nodup_dedupFirst _) (nodup_dedupFirst _)]
    intro k
    simp [mem_dedupFirst, List.mem_append, hAk k, hBk k]
  simp only [diffBags]
  rw [DiffResult.mk.injEq]
  refine ⟨?_, ?_, ?_⟩
  · apply insertionSort_eq_of_perm
    · refine (hkeys.filterMap _).trans ?_
      rw [List.filterMap_congr]
      intro k _
      simp only [hA k, hB k]
    · intro x hx y hy
      apply onlyList_antisymm (bagGet A) _ ?_ x hx y hy
      intro z hz
      rw [List.mem_filterMap] at hz
      obtain ⟨kz, _, hkz⟩ := hz
      split at hkz
      · simp only [Option.some.injEq] at hkz
        subst hkz
        rfl
      · exact absurd hkz (by simp)
  · apply insertionSort_eq_of_perm
    · refine (hkeys.filterMap _).trans ?_
      rw [List.filterMap_congr]
      intro k _
      simp only [hA k, hB k]
    · intro x hx y hy
      apply onlyList_antisymm (bagGet B) _ ?_ x hx y hy
      intro z hz
      rw [List.mem_filterMap] at hz
      obtain ⟨kz, _, hkz⟩ := hz
      split at hkz
      · simp only [Option.some.injEq] at hkz
        subst hkz
        rfl
      · exact absurd hkz (by simp)
  · apply insertionSort_eq_of_perm
    · refine (hkeys.filterMap _).trans ?_
      rw [List.filterMap_congr]
      intro k _
      simp only [hA k, hB k]
    · intro x hx y hy
      apply fdList_antisymm (bagGet A) (bagGet B) _ ?_ x hx y hy
      intro z hz
      rw [List.mem_filterMap] at hz
      obtain ⟨kz, _, hkz⟩ := hz
      split at hkz
      · simp only [Option.some.injEq] at hkz
        subst hkz
        exact ⟨rfl, rfl, rfl⟩
      · exact absurd hkz (by simp)

theorem mem_toBag (l : List Str) (o : CanonOpts) (e : Str × Nat) :
    e ∈ toBag l o ↔ e.1 ∈ l.map (canonicalizeRow · o) ∧
      e.2 = (l.map (canonicalizeRow · o)).countP (fun x => decide (x = e.1)) := by
  rw [mem_bag_iff_of_nodup (nodup_bagKeys_toBag l o) e, mem_bagKeys_toBag, bagGet_toBag]
  exact and_congr_right (fun _ => eq_comm)

/-- C1: multiset comparison ignores line order.  Permuting a line sequence
leaves the frequency bag unchanged (as a multiset of key/count entries) and
leaves the entire `diffBags` result — `onlyInA`, `onlyInB`, `freqDelta`, and
hence the `identical` flag — unchanged, whichever input is permuted. -/
theorem multiset_compare_ignores_order (o : CanonOpts) (la la' lb : List Str)
    (hperm : la.Perm la') :
    (toBag la o).Perm (toBag la' o) ∧
    diffBags (toBag la o) (toBag lb o) = diffBags (toBag la' o) (toBag lb o) ∧
    diffBags (toBag lb o) (toBag la o) = diffBags (toBag lb o) (toBag la' o) ∧
    msIdentical (diffBags (toBag la o) (toBag lb o))
      = msIdentical (diffBags (toBag la' o) (toBag lb o)) := by
  have hmap : (la.map (canonicalizeRow · o)).Perm (la'.map (canonicalizeRow · o)) :=
    hperm.map _
  have hcount : ∀ k, bagGet (toBag la o) k = bagGet (toBag la' o) k := fun k => by
    rw [bagGet_toBag, bagGet_toBag]
    exact hmap.countP_eq _
  have hkeys : ∀ k, k ∈ bagKeys (toBag la o) ↔ k ∈ bagKeys (toBag la' o) := fun k => by
    rw [mem_bagKeys_toBag, mem_bagKeys_toBag, hmap.mem_iff]
  have hbagperm : (toBag la o).Perm (toBag la' o) := by
    rw [List.perm_ext_iff_of_nodup
      (List.Nodup.of_map Prod.fst (nodup_bagKeys_toBag la o))
      (List.Nodup.of_map Prod.fst (nodup_bagKeys_toBag la' o))]
    intro e
    rw [mem_toBag, mem_toBag, hmap.mem_iff, hmap.countP_eq (fun x => decide (x = e.1))]
  have hd1 := @diffBags_congr (toBag la o) (toBag la' o) (toBag lb o) (toBag lb o)
    hcount hkeys (fun _ => rfl) (fun _ => Iff.rfl)
  have hd2 := @diffBags_congr (toBag lb o) (toBag lb o) (toBag la o) (toBag la' o)
    (fun _ => rfl) (fun _ => Iff.rfl) hcount hkeys
  exact ⟨hbagperm, hd1, hd2, by rw [hd1]⟩

/-- Witness for C1 at concrete input: permuting `["b", "a", "b"]` to
`["a", "b", "b"]` changes nothing in the diff against `["a", "a"]`. -/
theorem multiset_compare_ignores_order_witness :
    (["b".toList, "a".toList, "b".toList].Perm ["a".toList, "b".toList, "b".toList]) ∧
    ((toBag ["b".toList, "a".toList, "b".toList] ⟨true, false, true⟩).Perm
        (toBag ["a".toList, "b".toList, "b".toList] ⟨true, false, true⟩) ∧
      diffBags (toBag ["b".toList, "a".toList, "b".toList] ⟨true, false, true⟩)
          (toBag ["a".toList, "a".toList] ⟨true, false, true⟩)
        = diffBags (toBag ["a".toList, "b".toList, "b".toList] ⟨true, false, true⟩)
          (toBag ["a".toList, "a".toList] ⟨true, false, true⟩) ∧
      diffBags (toBag ["a".toList, "a".toList] ⟨true, false, true⟩)
          (toBag ["b".toList, "a".toList, "b".toList] ⟨true, false, true⟩)
        = diffBags (toBag ["a".toList, "a".toList] ⟨true, false, true⟩)
          (toBag ["a".toList, "b".toList, "b".toList] ⟨true, false, true⟩) ∧
      msIdentical (diffBags (toBag ["b".toList, "a".toList, "b".toList] ⟨true, false, true⟩)
          (toBag ["a".toList, "a".toList] ⟨true, false, true⟩))
        = msIdentical (diffBags (toBag ["a".toList, "b".toList, "b".toList] ⟨true, false, true⟩)
          (toBag ["a".toList, "a".toList] ⟨true, false, true⟩))) :=
  ⟨by decide,
    multiset_compare_ignores_order ⟨true, false, true⟩
      ["b".toList, "a".toList, "b".toList] ["a".toList, "b".toList, "b".toList]
      ["a".toList, "a".toList] (by decide)⟩

/-- C4: `diffBags` partitions the union of key sets.  A key sits in
`onlyInA` exactly when its A-count is positive and its B-count zero, in
`onlyInB` in the mirrored case, and in `freqDelta` exactly when both counts
are positive and differ; a key with equal positive counts, or with both
counts zero (in particular any key outside the union), is in none of the
three lists. -/
theorem diffBags_partition (A B : Bag) (k : Str) :
    ((∃ c, (k, c) ∈ (diffBags A B).onlyInA) ↔ bagGet A k ≠ 0 ∧ bagGet B k = 0) ∧
    ((∃ c, (k, c) ∈ (diffBags A B).onlyInB) ↔ bagGet A k = 0 ∧ bagGet B k ≠ 0) ∧
    ((∃ e ∈ (diffBags A B).freqDelta, e.value = k) ↔
      bagGet A k ≠ 0 ∧ bagGet B k ≠ 0 ∧ bagGet A k ≠ bagGet B k) := by
  refine ⟨?_, ?_, ?_⟩
  · constructor
    · rintro ⟨c, hc⟩
      have h := (mem_onlyInA_diffBags A B k c).mp hc
      exact ⟨h.1, h.2.1⟩
    · rintro ⟨h1, h2⟩
      exact ⟨bagGet A k, (mem_onlyInA_diffBags A B k _).mpr ⟨h1, h2, rfl⟩⟩
  · constructor
    · rintro ⟨c, hc⟩
      have h := (mem_onlyInB_diffBags A B k c).mp hc
      exact ⟨h.1, h.2.1⟩
    · rintro ⟨h1, h2⟩
      exact ⟨bagGet B k, (mem_onlyInB_diffBags A B k _).mpr ⟨h1, h2, rfl⟩⟩
  · constructor
    · rintro ⟨e, he, hv⟩
      have h := (mem_freqDelta_diffBags A B e).mp he
      rw [hv] at h
      exact ⟨h.1, h.2.1, h.2.2.1⟩
    · rintro ⟨h1, h2, h3⟩
      refine ⟨⟨k, bagGet A k, bagGet B k, (bagGet A k : Int) - bagGet B k⟩, ?_, rfl⟩
      exact (mem_freqDelta_diffBags A B _).mpr ⟨h1, h2, h3, rfl, rfl, rfl⟩

/-- C5: `diffBags` is symmetric under swapping its inputs with roles
exchanged: `onlyInA` and `onlyInB` trade places exactly (even as sorted
lists), and the `freqDelta` entries have their counts exchanged and their
deltas negated. -/
theorem diffBags_swap (A B : Bag) :
    (diffBags B A).onlyInB = (diffBags A B).onlyInA ∧
    (diffBags B A).onlyInA = (diffBags A B).onlyInB ∧
    (diffBags B A).freqDelta = (diffBags A B).freqDelta.map fdSwap := by
  have hkeys : (dedupFirst (bagKeys B ++ bagKeys A)).Perm
      (dedupFirst (bagKeys A ++ bagKeys B)) := by
    rw [List.perm_ext_iff_of_nodup (nodup_dedupFirst _) (nodup_dedupFirst _)]
    intro k
    simp only [mem_dedupFirst, List.mem_append]
    exact or_comm
  refine ⟨?_, ?_, ?_⟩
  · simp only [diffBags]
    apply insertionSort_eq_of_perm
    · refine List.Perm.trans ?_ (hkeys.filterMap _)
      rw [List.filterMap_congr]
      intro x _
      rcases Nat.eq_zero_or_pos (bagGet A x) with h | h <;>
        rcases Nat.eq_zero_or_pos (bagGet B x) with h' | h' <;>
          simp [h, h', Nat.pos_iff_ne_zero.mp]
    · intro x hx y hy
      apply onlyList_antisymm (bagGet A) _ ?_ x hx y hy
      intro z hz
      rw [List.mem_filterMap] at hz
      obtain ⟨kz, _, hkz⟩ := hz
      split at hkz
      · simp only [Option.some.injEq] at hkz
        subst hkz
        rfl
      · exact absurd hkz (by simp)
  · simp only [diffBags]
    apply insertionSort_eq_of_perm
    · refine List.Perm.trans ?_ (hkeys.filterMap _)
      rw [List.filterMap_congr]
      intro x _
      rcases Nat.eq_zero_or_pos (bagGet A x) with h | h <;>
        rcases Nat.eq_zero_or_pos (bagGet B x) with h' | h' <;>
          simp [h, h', Nat.pos_iff_ne_zero.mp]
    · intro x hx y hy
      apply onlyList_antisymm (bagGet B) _ ?_ x hx y hy
      intro z hz
      rw [List.mem_filterMap] at hz
      obtain ⟨kz, _, hkz⟩ := hz
      split at hkz
      · simp only [Option.some.injEq] at hkz
        subst hkz
        rfl
      · exact absurd hkz (by simp)
  · apply sorted_eq_of_perm_antisymm_mem (r := fdLe)
    · show ((diffBags B A).freqDelta).Perm _
      have hBA : ((diffBags B A).freqDelta).Perm
          ((dedupFirst (bagKeys B ++ bagKeys A)).filterMap fun k =>
            if bagGet B k ≠ 0 ∧ bagGet A k ≠ 0 ∧ bagGet B k ≠ bagGet A k then
              some ⟨k, bagGet B k, bagGet A k, (bagGet B k : Int) - bagGet A k⟩
            else none) := by
        simp only [diffBags]
        exact List.perm_insertionSort fdLe _
      have hAB : ((diffBags A B).freqDelta.map fdSwap).Perm
          ((dedupFirst (bagKeys A ++ bagKeys B)).filterMap fun k =>
            if bagGet B k ≠ 0 ∧ bagGet A k ≠ 0 ∧ bagGet B k ≠ bagGet A k then
              some ⟨k, bagGet B k, bagGet A k, (bagGet B k : Int) - bagGet A k⟩
            else none) := by
        simp only [diffBags]
        refine List.Perm.trans ((List.perm_insertionSort fdLe _).map fdSwap) ?_
        rw [List.map_filterMap]
        rw [List.filterMap_congr]
        intro x _
        by_cases hc : bagGet A x ≠ 0 ∧ bagGet B x ≠ 0 ∧ bagGet A x ≠ bagGet B x
        · have hc' : bagGet B x ≠ 0 ∧ bagGet A x ≠ 0 ∧ bagGet B x ≠ bagGet A x :=
            ⟨hc.2.1, hc.1, fun h => hc.2.2 h.symm⟩
          rw [if_pos hc, if_pos hc']
          simp [fdSwap, neg_sub]
        · have hc' : ¬ (bagGet B x ≠ 0 ∧ bagGet A x ≠ 0 ∧ bagGet B x ≠ bagGet A x) := by
            intro h
            exact hc ⟨h.2.1, h.1, fun h' => h.2.2 h'.symm⟩
          rw [if_neg hc, if_neg hc']
          simp
      exact hBA.trans ((hAB.trans (hkeys.symm.filterMap _)).symm)
    · simp only [diffBags]
      exact List.sorted_insertionSort fdLe _
    · apply List.Pairwise.map (R := fdLe) fdSwap
      · intro a b hab
        rcases hab with h | ⟨h1, h2⟩
        · exact Or.inl (by simpa [fdSwap] using h)
        · exact Or.inr ⟨by simpa [fdSwap] using h1, h2⟩
      · simp only [diffBags]
        exact List.sorted_insertionSort fdLe _
    · intro x hx y hy
      apply fdList_antisymm (bagGet B) (bagGet A) _ ?_ x hx y hy
      intro z hz
      exact ((mem_freqDelta_diffBags B A z).mp hz).2.2.2

/-! ## C2: leading whitespace under canonicalization -/

theorem isHWS_jsToLower (c : Char) : isHWS (jsToLower c) = isHWS c := by
  unfold jsToLower
  cases hf : lowerPairs.find? (fun p => p.1 = c) with
  | none => simp
  | some p =>
    have hmem : p ∈ lowerPairs := List.mem_of_find?_eq_some hf
    have heq : p.1 = c := by simpa using List.find?_some hf
    have hkey : ∀ x ∈ lowerPairs, isHWS x.1 = false ∧ isHWS x.2 = false := by decide
    obtain ⟨h1, h2⟩ := hkey p hmem
    rw [← heq]
    simp [h1, h2]

theorem jsToLower_eq_of_isHWS {c : Char} (h : isHWS c = true) : jsToLower c = c := by
  have hc : c = ' ' ∨ c = '\t' := by
    simpa [isHWS] using h
  rcases hc with rfl | rfl <;> rfl

theorem takeWhile_isHWS_map_jsToLower (s : Str) :
    (s.map jsToLower).takeWhile isHWS = s.takeWhile isHWS := by
  induction s with
  | nil => rfl
  | cons c rest ih =>
    by_cases h : isHWS c
    · simp [List.takeWhile_cons, isHWS_jsToLower, h, ih, jsToLower_eq_of_isHWS h]
    · simp [List.takeWhile_cons, isHWS_jsToLower, h]

theorem takeWhile_append_of_ex_not {p : Char → Bool} :
    ∀ (t u : Str), (∃ c ∈ t, p c = false) →
      List.takeWhile p (t ++ u) = List.takeWhile p t
  | [], _, hex => by simp at hex
  | c :: t', u, hex => by
    simp only [List.cons_append, List.takeWhile_cons]
    by_cases h : p c
    · rw [if_pos h, if_pos h]
      have hex' : ∃ x ∈ t', p x = false := by
        obtain ⟨x, hx, hpx⟩ := hex
        rcases List.mem_cons.mp hx with rfl | hx'
        · rw [h] at hpx
          exact absurd hpx (by simp)
        · exact ⟨x, hx', hpx⟩
      rw [takeWhile_append_of_ex_not t' u hex']
    · rw [if_neg (by simpa using h), if_neg (by simpa using h)]

/-- `trimTrailingHWS` splits the string: what it removes is all spaces/tabs. -/
theorem trimTrailingHWS_append (s : Str) :
    trimTrailingHWS s ++ (s.reverse.takeWhile isHWS).reverse = s ∧
      (∀ x ∈ (s.reverse.takeWhile isHWS).reverse, isHWS x = true) := by
  constructor
  · rw [trimTrailingHWS]
    rw [← List.reverse_append, List.takeWhile_append_dropWhile, List.reverse_reverse]
  · intro x hx
    exact List.mem_takeWhile_imp (List.mem_reverse.mp hx)

theorem takeWhile_isHWS_trimTrailingHWS (s : Str)
    (hex : ∃ c ∈ s, isHWS c = false) :
    (trimTrailingHWS s).takeWhile isHWS = s.takeWhile isHWS := by
  obtain ⟨happ, hall⟩ := trimTrailingHWS_append s
  have hex' : ∃ c ∈ trimTrailingHWS s, isHWS c = false := by
    obtain ⟨c, hc, hpc⟩ := hex
    rw [← happ] at hc
    rcases List.mem_append.mp hc with h | h
    · exact ⟨c, h, hpc⟩
    · rw [hall c h] at hpc
      exact absurd hpc (by simp)
  conv_rhs => rw [← happ]
  rw [takeWhile_append_of_ex_not _ _ hex']

theorem takeWhile_isHWS_collapseHWSAux_inRun (l : Str) :
    (collapseHWSAux true l).takeWhile isHWS = [] := by
  induction l with
  | nil => rfl
  | cons c rest ih =>
    by_cases h : isHWS c <;> simp [collapseHWSAux, h, ih, List.takeWhile_cons]

theorem takeWhile_isHWS_collapseHWS (s : Str) :
    (collapseHWS s).takeWhile isHWS =
      if s.takeWhile isHWS = [] then [] else [' '] := by
  cases s with
  | nil => rfl
  | cons c rest =>
    simp only [collapseHWS, collapseHWSAux, List.takeWhile_cons]
    by_cases h : isHWS c
    · rw [if_pos h, if_neg (by simp [h] : ¬ (if isHWS c = true then c :: List.takeWhile isHWS rest else []) = [])]
      simp only [if_neg (Bool.not_eq_true _ ▸ rfl)]
      rw [List.takeWhile_cons, if_pos (by rfl : isHWS ' ' = true),
        takeWhile_isHWS_collapseHWSAux_inRun]
    · rw [if_neg h, List.takeWhile_cons, if_neg (by simpa using h),
        if_pos (by simp [h])]

/-- C2 (amended): for a line whose newline-normalized form contains at least
one character other than space/tab, `canonicalizeRow` preserves the leading
space/tab run exactly when `collapseWhitespace` is off; when it is on, a
nonempty leading run is replaced by a single space.  (As stated, the claim
is false: see the counterexample.) -/
theorem canonicalizeRow_leading_whitespace (s : Str) (o : CanonOpts)
    (hex : ∃ c ∈ normNewlines s, isHWS c = false) :
    (canonicalizeRow s o).takeWhile isHWS =
      if o.collapseWhitespace then
        (if (normNewlines s).takeWhile isHWS = [] then [] else [' '])
      else (normNewlines s).takeWhile isHWS := by
  simp only [canonicalizeRow]
  have htrim : (if o.trim then trimTrailingHWS (normNewlines s) else normNewlines s).takeWhile
      isHWS = (normNewlines s).takeWhile isHWS := by
    cases htr : o.trim
    · simp
    · simpa using takeWhile_isHWS_trimTrailingHWS _ hex
  cases hcw : o.collapseWhitespace <;> cases hcs : o.caseSensitive <;>
    simp [hcw, hcs, takeWhile_isHWS_map_jsToLower, takeWhile_isHWS_collapseHWS, htrim]

/-- C2 is false as stated: with `collapseWhitespace` on, the two-space
leading run of `"  a"` collapses to a single space; and already with plain
trimming, a line of pure whitespace loses its leading run entirely. -/
theorem canonicalizeRow_alters_leading_whitespace :
    (canonicalizeRow "  a".toList ⟨true, true, true⟩).takeWhile isHWS
        ≠ (normNewlines "  a".toList).takeWhile isHWS ∧
    (canonicalizeRow " \t".toList ⟨true, false, true⟩).takeWhile isHWS
        ≠ (normNewlines " \t".toList).takeWhile isHWS := by decide

/-- Witness for the amended C2 at a concrete input. -/
theorem canonicalizeRow_leading_whitespace_witness :
    (∃ c ∈ normNewlines "  a b".toList, isHWS c = false) ∧
    (canonicalizeRow "  a b".toList ⟨true, true, true⟩).takeWhile isHWS =
      (if (CanonOpts.mk true true true).collapseWhitespace then
        (if (normNewlines "  a b".toList).takeWhile isHWS = [] then [] else [' '])
      else (normNewlines "  a b".toList).takeWhile isHWS) :=
  ⟨⟨'a', by decide⟩,
    canonicalizeRow_leading_whitespace "  a b".toList ⟨true, true, true⟩ ⟨'a', by decide⟩⟩

/-! ## C8: the orchestrator's XML detection heuristic -/

theorem takeWhile_append_stop {p : Char → Bool} :
    ∀ (t : Str) (x : Char) (rest : Str), (∀ c ∈ t, p c = true) → p x = false →
      List.takeWhile p (t ++ x :: rest) = t
  | [], x, rest, _, hx => by simp [List.takeWhile_cons, hx]
  | c :: t', x, rest, hall, hx => by
    have hc : p c = true := hall c (by simp)
    simp only [List.cons_append, List.takeWhile_cons, hc, if_true]
    rw [takeWhile_append_stop t' x rest (fun d hd => hall d (by simp [hd])) hx]

theorem dropWhile_append_all {p : Char → Bool} :
    ∀ (w l : Str), (∀ c ∈ w, p c = true) →
      List.dropWhile p (w ++ l) = List.dropWhile p l
  | [], l, _ => rfl
  | c :: w', l, hall => by
    have hc : p c = true := hall c (by simp)
    simp only [List.cons_append, List.dropWhile_cons, hc, if_true]
    exact dropWhile_append_all w' l (fun d hd => hall d (by simp [hd]))

/-- The regex prefix test `/^\\s*<[^>]+>/` in terms of a string decomposition:
optional leading whitespace, `'<'`, a nonempty `'>'`-free run, `'>'`, and
then arbitrary trailing content. -/
theorem looksLikeXml_iff (s : Str) :
    looksLikeXml s = true ↔
      ∃ w t rest, s = w ++ '<' :: (t ++ '>' :: rest) ∧
        (∀ c ∈ w, jsWs c = true) ∧ t ≠ [] ∧ (∀ c ∈ t, c ≠ '>') := by
  constructor
  · intro h
    unfold looksLikeXml at h
    split at h
    next r heq =>
      simp only [Bool.and_eq_true, Bool.not_eq_true', decide_eq_true_eq] at h
      obtain ⟨ht, hlen⟩ := h
      set t := r.takeWhile (fun c => decide (c ≠ '>')) with htdef
      set d := r.dropWhile (fun c => decide (c ≠ '>')) with hddef
      have hsplit : t ++ d = r := List.takeWhile_append_dropWhile _ r
      have hdropne : d ≠ [] := by
        intro hnil
        rw [hnil, List.append_nil] at hsplit
        rw [hsplit] at hlen
        omega
      have hhead : d.head hdropne = '>' := by
        have h2 : decide ((d.head hdropne) ≠ '>') = false :=
          List.head_dropWhile_not (fun c => decide (c ≠ '>')) r hdropne
        simpa using h2
      have hd2 : d = '>' :: d.tail := by
        conv_lhs => rw [← List.head_cons_tail d hdropne]
        rw [hhead]
      refine ⟨s.takeWhile jsWs, t, d.tail, ?_,
        fun x hx => List.mem_takeWhile_imp hx, ?_, ?_⟩
      · rw [← hd2, hsplit, ← heq]
        exact (List.takeWhile_append_dropWhile jsWs s).symm
      · intro hnil
        rw [hnil] at ht
        simp at ht
      · intro x hx
        rw [htdef] at hx
        have hx' := List.mem_takeWhile_imp (p := fun c => decide (c ≠ '>')) hx
        exact of_decide_eq_true hx'
    next => exact absurd h (by simp)
  · rintro ⟨w, t, rest, rfl, hw, ht, htfree⟩
    unfold looksLikeXml
    rw [dropWhile_append_all w _ hw]
    have h1 : List.dropWhile jsWs ('<' :: (t ++ '>' :: rest)) = '<' :: (t ++ '>' :: rest) := by
      rw [List.dropWhile_cons]
      simp [jsWs]
    rw [h1]
    show (!(List.takeWhile (fun c => decide (c ≠ '>')) (t ++ '>' :: rest)).isEmpty
      && decide ((List.takeWhile (fun c => decide (c ≠ '>')) (t ++ '>' :: rest)).length
        < (t ++ '>' :: rest).length)) = true
    rw [takeWhile_append_stop t '>' rest (fun c hc => decide_eq_true (htfree c hc)) (by simp)]
    simp only [Bool.and_eq_true, Bool.not_eq_true', decide_eq_true_eq]
    constructor
    · cases t with
      | nil => exact absurd rfl ht
      | cons x xs => rfl
    · simp

/-- C8 (amended): in order-insensitive mode the orchestrator attempts the
XML record path if and only if both inputs match the regex prefix test
`/^\s*<[^>]+>/` — optional leading whitespace, `'<'`, one or more
non-`'>'` characters, `'>'`, with the trailing content unconstrained —
not the trimmed-starts-with-`'<'`-and-ends-with-`'>'` heuristic the claim
states; otherwise (and whenever order-insensitive mode is off) the XML
record path is not chosen. -/
theorem chooseMode_xmlRecords_iff (a b : Str) (io : Bool) :
    chooseMode a b io = CompareMode.xmlRecords ↔
      io = true ∧
      (∃ w t rest, a = w ++ '<' :: (t ++ '>' :: rest) ∧
        (∀ c ∈ w, jsWs c = true) ∧ t ≠ [] ∧ (∀ c ∈ t, c ≠ '>')) ∧
      (∃ w t rest, b = w ++ '<' :: (t ++ '>' :: rest) ∧
        (∀ c ∈ w, jsWs c = true) ∧ t ≠ [] ∧ (∀ c ∈ t, c ≠ '>')) := by
  rw [← looksLikeXml_iff, ← looksLikeXml_iff]
  unfold chooseMode
  cases io
  · simp
  · by_cases ha : looksLikeXml a <;> by_cases hb : looksLikeXml b <;>
      simp [ha, hb]

/-- C8 is false as stated: on the input `"<>"` the trimmed text starts with
`'<'` and ends with `'>'` (the claimed heuristic), yet the orchestrator does
not attempt the XML record path; conversely `"<a> x"` fails the claimed
heuristic but the XML record path is attempted. -/
theorem chooseMode_spec_heuristic_disagrees :
    looksLikeXML "<>".toList = true ∧
    chooseMode "<>".toList "<>".toList true ≠ CompareMode.xmlRecords ∧
    looksLikeXML "<a> x".toList = false ∧
    chooseMode "<a> x".toList "<a> x".toList true = CompareMode.xmlRecords := by
  decide

/-- C9: graceful degradation on XML failure.  Whenever the XML record path
is attempted and the flattener capability is absent (`none`), or flattening
either input throws (`Except.error`, covering the parse error of malformed
XML), `compareXmlRecordsAsMultisets` returns the line-based multiset
comparison of the raw texts — it never propagates the failure. -/
theorem compareXmlRecords_degrades (fmt : Option (Str → Except Str (List Str)))
    (a b : Str)
    (hfail : fmt = none ∨ ∃ f, fmt = some f ∧
      ((∃ e, f a = Except.error e) ∨ (∃ e, f b = Except.error e))) :
    compareXmlRecordsAsMultisets fmt a b = compareTextAsMultisets a b xmlFallbackOpts := by
  rcases hfail with rfl | ⟨f, rfl, hf⟩
  · rfl
  · rcases hf with ⟨e, he⟩ | ⟨e, he⟩
    · simp only [compareXmlRecordsAsMultisets]
      rw [he]
    · simp only [compareXmlRecordsAsMultisets]
      cases hfa : f a with
      | ok ra => rw [he]
      | error e' => rfl

/-- Witness for C9: a flattener that throws on every input (as the DOM
parser does on the malformed `"<a><b></a>"`) falls back to the line-based
result. -/
theorem compareXmlRecords_degrades_witness :
    ((some (fun _ : Str => (Except.error "parse".toList : Except Str (List Str)))) = none ∨
      ∃ f, (some (fun _ : Str => (Except.error "parse".toList : Except Str (List Str))))
          = some f ∧
        ((∃ e, f "<a><b></a>".toList = Except.error e) ∨
          (∃ e, f "x".toList = Except.error e))) ∧
    compareXmlRecordsAsMultisets
        (some (fun _ : Str => (Except.error "parse".toList : Except Str (List Str))))
        "<a><b></a>".toList "x".toList
      = compareTextAsMultisets "<a><b></a>".toList "x".toList xmlFallbackOpts :=
  ⟨Or.inr ⟨_, rfl, Or.inl ⟨_, rfl⟩⟩,
    compareXmlRecords_degrades _ _ _ (Or.inr ⟨_, rfl, Or.inl ⟨_, rfl⟩⟩)⟩

/-! ## C10 and C6: the three-cursor walk of `unifiedDiff` -/

theorem cons_sublist_cons_ne {x y : Str} {l₁ l₂ : List Str} (hne : x ≠ y)
    (h : (x :: l₁).Sublist (y :: l₂)) : (x :: l₁).Sublist l₂ := by
  cases h with
  | cons _ h' => exact h'
  | cons₂ _ h' => exact absurd rfl hne

/-- Advancing the common cursor together with a text cursor preserves the
common-subsequence invariant. -/
theorem sublist_drop_succ_of_eq (c A : List Str) (k i : Nat)
    (hk : k < c.length) (hi : i < A.length)
    (heq : A.getD i [] = c.getD k [])
    (h : (c.drop k).Sublist (A.drop i)) :
    (c.drop (k + 1)).Sublist (A.drop (i + 1)) := by
  rw [List.drop_eq_getElem_cons hk, List.drop_eq_getElem_cons hi] at h
  have hval : c.getD k [] = A.getD i [] := heq.symm
  rw [List.getD_eq_getElem c [] hk, List.getD_eq_getElem A [] hi] at hval
  rw [hval] at h
  exact List.cons_sublist_cons.mp h

/-- Skipping a non-matching text line preserves the invariant. -/
theorem sublist_drop_succ_of_ne (c B : List Str) (k j : Nat)
    (hj : j < B.length)
    (hne : c.length ≤ k ∨ B.getD j [] ≠ c.getD k [])
    (h : (c.drop k).Sublist (B.drop j)) :
    (c.drop k).Sublist (B.drop (j + 1)) := by
  by_cases hk : k < c.length
  · have hne' : c.getD k [] ≠ B.getD j [] := by
      rcases hne with h' | h'
      · omega
      · exact fun hcb => h' hcb.symm
    rw [List.getD_eq_getElem c [] hk, List.getD_eq_getElem B [] hj] at hne'
    rw [List.drop_eq_getElem_cons hk] at h ⊢
    rw [List.drop_eq_getElem_cons hj] at h
    exact cons_sublist_cons_ne hne' h
  · rw [List.drop_eq_nil_of_le (le_of_not_lt hk)]
    exact List.nil_sublist _

theorem lcsBT_sublist (a b : List Str) :
    ∀ (i j : Nat), i ≤ a.length → j ≤ b.length →
      (lcsBT a b i j).Sublist (a.take i) ∧ (lcsBT a b i j).Sublist (b.take j)
  | 0, j, _, _ => by simp [lcsBT]
  | i + 1, 0, _, _ => by simp [lcsBT]
  | i + 1, j + 1, hi, hj => by
    have hia : i < a.length := hi
    have hjb : j < b.length := hj
    have htakea : a.take (i + 1) = a.take i ++ [a.getD i []] := by
      rw [List.take_succ, List.getElem?_eq_getElem hia, List.getD_eq_getElem a [] hia]
      rfl
    have htakeb : b.take (j + 1) = b.take j ++ [b.getD j []] := by
      rw [List.take_succ, List.getElem?_eq_getElem hjb, List.getD_eq_getElem b [] hjb]
      rfl
    rw [lcsBT]
    by_cases heq : a.getD i [] = b.getD j []
    · rw [if_pos heq]
      obtain ⟨h1, h2⟩ := lcsBT_sublist a b i j (Nat.le_of_succ_le hi) (Nat.le_of_succ_le hj)
      constructor
      · rw [htakea]
        exact h1.append (List.Sublist.refl _)
      · rw [htakeb, heq]
        exact h2.append (List.Sublist.refl _)
    · rw [if_neg heq]
      by_cases hdp : lcsDP a b i (j + 1) ≥ lcsDP a b (i + 1) j
      · rw [if_pos hdp]
        obtain ⟨h1, h2⟩ := lcsBT_sublist a b i (j + 1) (Nat.le_of_succ_le hi) hj
        refine ⟨h1.trans ?_, h2⟩
        rw [htakea]
        exact List.sublist_append_left _ _
      · rw [if_neg hdp]
        obtain ⟨h1, h2⟩ := lcsBT_sublist a b (i + 1) j hi (Nat.le_of_succ_le hj)
        refine ⟨h1, h2.trans ?_⟩
        rw [htakeb]
        exact List.sublist_append_left _ _
termination_by i j => (i, j)

/-- `lcs` returns a common subsequence of its two arguments. -/
theorem lcs_sublist (a b : List Str) : (lcs a b).Sublist a ∧ (lcs a b).Sublist b := by
  have h := lcsBT_sublist a b a.length b.length le_rfl le_rfl
  simpa [lcs, List.take_length] using h

/-- The main loop of `unifiedDiff` never gets stuck and never exhausts a
fuel bound exceeding the remaining walk length, as long as the common
sequence is a subsequence of what remains of both sides. -/
theorem diffLoop_total (A B c : List Str) :
    ∀ (fuel i j k : Nat) (cur : Option Hunk),
      (c.drop k).Sublist (A.drop i) → (c.drop k).Sublist (B.drop j) →
      (A.length - i) + (B.length - j) < fuel →
      (diffLoop A B c fuel i j k cur).isSome = true := by
  intro fuel
  induction fuel with
  | zero =>
    intro i j k cur _ _ hlt
    omega
  | succ fuel ih =>
    intro i j k cur hI1 hI2 hfuel
    show (diffLoop A B c (fuel + 1) i j k cur).isSome = true
    rw [diffLoop.eq_def]
    simp only []
    by_cases hloop : i < A.length ∨ j < B.length
    · rw [if_pos hloop]
      by_cases hcommon : k < c.length ∧ i < A.length ∧ j < B.length ∧
          A.getD i [] = c.getD k [] ∧ B.getD j [] = c.getD k []
      · rw [if_pos hcommon]
        obtain ⟨hk, hiA, hjB, hAc, hBc⟩ := hcommon
        exact ih (i + 1) (j + 1) (k + 1) _
          (sublist_drop_succ_of_eq c A k i hk hiA hAc hI1)
          (sublist_drop_succ_of_eq c B k j hk hjB hBc hI2)
          (by omega)
      · rw [if_neg hcommon]
        by_cases hplus : j < B.length ∧ (c.length ≤ k ∨ B.getD j [] ≠ c.getD k [])
        · rw [if_pos hplus]
          exact ih i (j + 1) k _ hI1
            (sublist_drop_succ_of_ne c B k j hplus.1 hplus.2 hI2)
            (by omega)
        · rw [if_neg hplus]
          by_cases hminus : i < A.length ∧ (c.length ≤ k ∨ A.getD i [] ≠ c.getD k [])
          · rw [if_pos hminus]
            exact ih (i + 1) j k _
              (sublist_drop_succ_of_ne c A k i hminus.1 hminus.2 hI1)
              hI2 (by omega)
          · exfalso
            rcases hloop with hiA | hjB
            · have hdk : k < c.length ∧ A.getD i [] = c.getD k [] := by
                by_contra hcontra
                push_neg at hcontra
                apply hminus
                refine ⟨hiA, ?_⟩
                by_cases hk : k < c.length
                · exact Or.inr (hcontra (by omega))
                · exact Or.inl (by omega)
              by_cases hjB : j < B.length
              · have hbk : k < c.length ∧ B.getD j [] = c.getD k [] := by
                  by_contra hcontra
                  push_neg at hcontra
                  apply hplus
                  refine ⟨hjB, ?_⟩
                  by_cases hk : k < c.length
                  · exact Or.inr (hcontra (by omega))
                  · exact Or.inl (by omega)
                exact hcommon ⟨hdk.1, hiA, hjB, hdk.2, hbk.2⟩
              · have hBnil : B.drop j = [] := List.drop_eq_nil_of_le (by omega)
                rw [hBnil, List.sublist_nil] at hI2
                have : c.length ≤ k := List.drop_eq_nil_iff.mp hI2
                omega
            · have hbk : k < c.length ∧ B.getD j [] = c.getD k [] := by
                by_contra hcontra
                push_neg at hcontra
                apply hplus
                refine ⟨hjB, ?_⟩
                by_cases hk : k < c.length
                · exact Or.inr (hcontra (by omega))
                · exact Or.inl (by omega)
              by_cases hiA : i < A.length
              · have hdk : k < c.length ∧ A.getD i [] = c.getD k [] := by
                  by_contra hcontra
                  push_neg at hcontra
                  apply hminus
                  refine ⟨hiA, ?_⟩
                  by_cases hk : k < c.length
                  · exact Or.inr (hcontra (by omega))
                  · exact Or.inl (by omega)
                exact hcommon ⟨hbk.1, hiA, hjB, hdk.2, hbk.2⟩
              · have hAnil : A.drop i = [] := List.drop_eq_nil_of_le (by omega)
                rw [hAnil, List.sublist_nil] at hI1
                have : c.length ≤ k := List.drop_eq_nil_iff.mp hI1
                omega
    · rw [if_neg hloop]
      simp

/-- C10: the three-cursor walk of `unifiedDiff` terminates on every pair of
input texts.  Because `lcs` returns a common subsequence of both pruned line
sequences, every loop iteration advances a cursor, the stuck state is
unreachable, and the fuel bound `|A| + |B| + 1` is never exhausted — so
`unifiedDiffHunks` always produces a result. -/
theorem unifiedDiff_terminates (aText bText : Str) :
    (unifiedDiffHunks aText bText).isSome = true := by
  unfold unifiedDiffHunks
  apply diffLoop_total
  · simpa using (lcs_sublist (diffLines aText) (diffLines bText)).1
  · simpa using (lcs_sublist (diffLines aText) (diffLines bText)).2
  · omega

/-- With a hunk open, the rest of the walk appends lines to it that, applied
to the remainder of A, emit exactly the remainder of B while consuming all
of A. -/
theorem diffLoop_some_spec (A B c : List Str) :
    ∀ (fuel i j k a0 b0 : Nat) (ls : List TaggedLine) (hs : List Hunk),
      diffLoop A B c fuel i j k (some ⟨a0, b0, ls⟩) = some hs →
      ∃ ls', hs = [⟨a0, b0, ls ++ ls'⟩] ∧
        applyLines (A.drop i) ls' = some (B.drop j, A.length - i) := by
  intro fuel
  induction fuel with
  | zero =>
    intro i j k a0 b0 ls hs h
    rw [diffLoop] at h
    exact absurd h (by simp)
  | succ fuel ih =>
    intro i j k a0 b0 ls hs h
    rw [show diffLoop A B c (fuel + 1) i j k (some ⟨a0, b0, ls⟩) =
        (if i < A.length ∨ j < B.length then
          if k < c.length ∧ i < A.length ∧ j < B.length ∧
              A.getD i [] = c.getD k [] ∧ B.getD j [] = c.getD k [] then
            diffLoop A B c fuel (i + 1) (j + 1) (k + 1)
              (some ⟨a0, b0, ls ++ [TaggedLine.ctx (A.getD i [])]⟩)
          else
            if j < B.length ∧ (c.length ≤ k ∨ B.getD j [] ≠ c.getD k []) then
              diffLoop A B c fuel i (j + 1) k
                (some ⟨a0, b0, ls ++ [TaggedLine.add (B.getD j [])]⟩)
            else
              if i < A.length ∧ (c.length ≤ k ∨ A.getD i [] ≠ c.getD k []) then
                diffLoop A B c fuel (i + 1) j k
                  (some ⟨a0, b0, ls ++ [TaggedLine.del (A.getD i [])]⟩)
              else none
        else some [⟨a0, b0, ls⟩]) from by rw [diffLoop.eq_def]; rfl] at h
    by_cases hloop : i < A.length ∨ j < B.length
    · rw [if_pos hloop] at h
      by_cases hcommon : k < c.length ∧ i < A.length ∧ j < B.length ∧
          A.getD i [] = c.getD k [] ∧ B.getD j [] = c.getD k []
      · rw [if_pos hcommon] at h
        obtain ⟨hk, hiA, hjB, hAc, hBc⟩ := hcommon
        obtain ⟨ls', hhs, happ⟩ := ih (i + 1) (j + 1) (k + 1) a0 b0 _ hs h
        refine ⟨TaggedLine.ctx (A.getD i []) :: ls', ?_, ?_⟩
        · rw [hhs]
          simp
        · rw [List.drop_eq_getElem_cons hiA]
          show (if A[i] = A.getD i [] then
            (applyLines (A.drop (i + 1)) ls').map
              (fun p => (A.getD i [] :: p.1, p.2 + 1)) else none)
            = some (B.drop j, A.length - i)
          rw [if_pos (List.getD_eq_getElem A [] hiA).symm, happ]
          rw [List.drop_eq_getElem_cons hjB]
          have hval : A.getD i [] = B[j] := by
            rw [← List.getD_eq_getElem B [] hjB, hAc, hBc]
          have hnat : A.length - (i + 1) + 1 = A.length - i := by omega
          simp only [Option.map_some']
          rw [hval, hnat]
      · rw [if_neg hcommon] at h
        by_cases hplus : j < B.length ∧ (c.length ≤ k ∨ B.getD j [] ≠ c.getD k [])
        · rw [if_pos hplus] at h
          obtain ⟨ls', hhs, happ⟩ := ih i (j + 1) k a0 b0 _ hs h
          refine ⟨TaggedLine.add (B.getD j []) :: ls', ?_, ?_⟩
          · rw [hhs]
            simp
          · show (applyLines (A.drop i) ls').map
                (fun p => (B.getD j [] :: p.1, p.2)) = some (B.drop j, A.length - i)
            rw [happ, List.drop_eq_getElem_cons hplus.1]
            have hval : B.getD j [] = B[j] := List.getD_eq_getElem B [] hplus.1
            simp only [Option.map_some']
            exact congrArg (fun x => some (x :: List.drop (j + 1) B, A.length - i)) hval
        · rw [if_neg hplus] at h
          by_cases hminus : i < A.length ∧ (c.length ≤ k ∨ A.getD i [] ≠ c.getD k [])
          · rw [if_pos hminus] at h
            obtain ⟨ls', hhs, happ⟩ := ih (i + 1) j k a0 b0 _ hs h
            refine ⟨TaggedLine.del (A.getD i []) :: ls', ?_, ?_⟩
            · rw [hhs]
              simp
            · rw [List.drop_eq_getElem_cons hminus.1]
              show (if A[i] = A.getD i [] then
                (applyLines (A.drop (i + 1)) ls').map
                  (fun p => (p.1, p.2 + 1)) else none)
                = some (B.drop j, A.length - i)
              rw [if_pos (List.getD_eq_getElem A [] hminus.1).symm, happ]
              have hnat : A.length - (i + 1) + 1 = A.length - i := by
                have := hminus.1
                omega
              simp only [Option.map_some']
              rw [hnat]
          · rw [if_neg hminus] at h
            exact absurd h (by simp)
    · rw [if_neg hloop] at h
      push_neg at hloop
      obtain ⟨hiA, hjB⟩ := hloop
      refine ⟨[], ?_, ?_⟩
      · rw [List.append_nil]
        simpa using h.symm
      · show some (([] : List Str), 0) = some (B.drop j, A.length - i)
        rw [List.drop_eq_nil_of_le hjB]
        have : A.length - i = 0 := by omega
        rw [this]

/-- With no hunk open (all walk so far was silent context), the hunks the
rest of the walk emits apply to A to give exactly the rest of B. -/
theorem diffLoop_none_spec (A B c : List Str) :
    ∀ (fuel i j k : Nat) (hs : List Hunk),
      diffLoop A B c fuel i j k none = some hs →
      applyHunks A i hs = some (B.drop j) := by
  intro fuel
  induction fuel with
  | zero =>
    intro i j k hs h
    rw [diffLoop] at h
    exact absurd h (by simp)
  | succ fuel ih =>
    intro i j k hs h
    rw [show diffLoop A B c (fuel + 1) i j k none =
        (if i < A.length ∨ j < B.length then
          if k < c.length ∧ i < A.length ∧ j < B.length ∧
              A.getD i [] = c.getD k [] ∧ B.getD j [] = c.getD k [] then
            diffLoop A B c fuel (i + 1) (j + 1) (k + 1) none
          else
            if j < B.length ∧ (c.length ≤ k ∨ B.getD j [] ≠ c.getD k []) then
              diffLoop A B c fuel i (j + 1) k
                (some ⟨i + 1, j + 1, [TaggedLine.add (B.getD j [])]⟩)
            else
              if i < A.length ∧ (c.length ≤ k ∨ A.getD i [] ≠ c.getD k []) then
                diffLoop A B c fuel (i + 1) j k
                  (some ⟨i + 1, j + 1, [TaggedLine.del (A.getD i [])]⟩)
              else none
        else some []) from by rw [diffLoop.eq_def]; rfl] at h
    by_cases hloop : i < A.length ∨ j < B.length
    · rw [if_pos hloop] at h
      by_cases hcommon : k < c.length ∧ i < A.length ∧ j < B.length ∧
          A.getD i [] = c.getD k [] ∧ B.getD j [] = c.getD k []
      · rw [if_pos hcommon] at h
        obtain ⟨hk, hiA, hjB, hAc, hBc⟩ := hcommon
        have hrec := ih (i + 1) (j + 1) (k + 1) hs h
        have hij : A[i] = B[j] := by
          rw [← List.getD_eq_getElem A [] hiA, ← List.getD_eq_getElem B [] hjB, hAc, hBc]
        cases hs with
        | nil =>
          simp only [applyHunks] at hrec ⊢
          rw [List.drop_eq_getElem_cons hiA, List.drop_eq_getElem_cons hjB]
          simp only [Option.some.injEq] at hrec ⊢
          rw [hij, hrec]
        | cons h1 hs' =>
          simp only [applyHunks] at hrec ⊢
          by_cases hpos : i + 1 + 1 ≤ h1.aStart
          · rw [if_pos hpos] at hrec
            rw [if_pos (by omega)]
            cases happly : applyLines (A.drop (h1.aStart - 1)) h1.lines with
            | none =>
              rw [happly] at hrec
              exact absurd hrec (by simp)
            | some p =>
              obtain ⟨out, con⟩ := p
              rw [happly] at hrec
              have hrec' : (applyHunks A (h1.aStart - 1 + con) hs').map
                  (fun rest => List.take (h1.aStart - 1 - (i + 1)) (List.drop (i + 1) A)
                    ++ out ++ rest)
                  = some (List.drop (j + 1) B) := hrec
              show (applyHunks A (h1.aStart - 1 + con) hs').map
                  (fun rest => List.take (h1.aStart - 1 - i) (List.drop i A) ++ out ++ rest)
                  = some (List.drop j B)
              simp only [Option.map_eq_some'] at hrec'
              obtain ⟨rest, hrest, hcat⟩ := hrec'
              rw [hrest]
              simp only [Option.map_some', Option.some.injEq]
              have hgap : h1.aStart - 1 - i = (h1.aStart - 1 - (i + 1)) + 1 := by omega
              rw [List.drop_eq_getElem_cons hiA, List.drop_eq_getElem_cons hjB, hgap,
                List.take_succ_cons, List.cons_append, List.cons_append, hij, hcat]
          · rw [if_neg hpos] at hrec
            exact absurd hrec (by simp)
      · rw [if_neg hcommon] at h
        by_cases hplus : j < B.length ∧ (c.length ≤ k ∨ B.getD j [] ≠ c.getD k [])
        · rw [if_pos hplus] at h
          obtain ⟨ls', hhs, happ⟩ := diffLoop_some_spec A B c fuel i (j + 1) k
            (i + 1) (j + 1) [TaggedLine.add (B.getD j [])] hs h
          rw [hhs]
          simp only [applyHunks, List.cons_append, List.nil_append]
          rw [if_pos (by omega : i + 1 ≤ i + 1)]
          have hstep : applyLines (A.drop (i + 1 - 1)) (TaggedLine.add (B.getD j []) :: ls')
              = some (B.getD j [] :: B.drop (j + 1), A.length - i) := by
            show (applyLines (A.drop (i + 1 - 1)) ls').map
              (fun p => (B.getD j [] :: p.1, p.2)) = _
            rw [show i + 1 - 1 = i from rfl, happ]
            rfl
          rw [hstep]
          simp only [applyHunks]
          have hdone : A.drop (i + 1 - 1 + (A.length - i)) = [] :=
            List.drop_eq_nil_of_le (by omega)
          rw [hdone]
          simp only [Option.map_some', Option.some.injEq]
          rw [show i + 1 - 1 - i = 0 from by omega, List.take_zero,
            List.drop_eq_getElem_cons hplus.1]
          simp only [List.nil_append, List.append_nil]
          exact congrArg (fun x => x :: List.drop (j + 1) B)
            (List.getD_eq_getElem B [] hplus.1)
        · rw [if_neg hplus] at h
          by_cases hminus : i < A.length ∧ (c.length ≤ k ∨ A.getD i [] ≠ c.getD k [])
          · rw [if_pos hminus] at h
            obtain ⟨ls', hhs, happ⟩ := diffLoop_some_spec A B c fuel (i + 1) j k
              (i + 1) (j + 1) [TaggedLine.del (A.getD i [])] hs h
            rw [hhs]
            simp only [applyHunks, List.cons_append, List.nil_append]
            rw [if_pos (by omega : i + 1 ≤ i + 1)]
            have hstep : applyLines (A.drop (i + 1 - 1)) (TaggedLine.del (A.getD i []) :: ls')
                = some (B.drop j, A.length - i) := by
              rw [show i + 1 - 1 = i from rfl, List.drop_eq_getElem_cons hminus.1]
              show (if A[i] = A.getD i [] then
                (applyLines (A.drop (i + 1)) ls').map (fun p => (p.1, p.2 + 1)) else none) = _
              rw [if_pos (List.getD_eq_getElem A [] hminus.1).symm, happ]
              simp only [Option.map_some', Option.some.injEq]
              have := hminus.1
              have hnat : A.length - (i + 1) + 1 = A.length - i := by omega
              rw [hnat]
            rw [hstep]
            simp only [applyHunks]
            have hdone : A.drop (i + 1 - 1 + (A.length - i)) = [] :=
              List.drop_eq_nil_of_le (by omega)
            rw [hdone]
            simp only [Option.map_some', Option.some.injEq]
            rw [show i + 1 - 1 - i = 0 from by omega, List.take_zero]
            simp
          · rw [if_neg hminus] at h
            exact absurd h (by simp)
    · rw [if_neg hloop] at h
      push_neg at hloop
      simp only [Option.some.injEq] at h
      rw [← h]
      simp only [applyHunks]
      rw [List.drop_eq_nil_of_le (by omega : A.length ≤ i),
        List.drop_eq_nil_of_le (by omega : B.length ≤ j)]

/-- C6: unified diff round-trip.  For every pair of input texts the walk
produces hunks, and applying each hunk's operations to the pruned line
sequence of A — keeping matching context lines, deleting matching `'-'`
lines, inserting `'+'` lines at their positions, and copying the lines of A
outside hunks — reconstructs the pruned line sequence of B exactly. -/
theorem unifiedDiff_roundtrip (aText bText : Str) :
    ∃ hs, unifiedDiffHunks aText bText = some hs ∧
      applyHunks (diffLines aText) 0 hs = some (diffLines bText) := by
  have htotal : (unifiedDiffHunks aText bText).isSome = true := by
    unfold unifiedDiffHunks
    apply diffLoop_total
    · simpa using (lcs_sublist (diffLines aText) (diffLines bText)).1
    · simpa using (lcs_sublist (diffLines aText) (diffLines bText)).2
    · omega
  obtain ⟨hs, hhs⟩ := Option.isSome_iff_exists.mp htotal
  refine ⟨hs, hhs, ?_⟩
  have hspec := diffLoop_none_spec (diffLines aText) (diffLines bText)
    (lcs (diffLines aText) (diffLines bText))
    ((diffLines aText).length + (diffLines bText).length + 1) 0 0 0 hs hhs
  simpa using hspec

/-! ## C3: texts differing only by one terminal newline -/

theorem getLast?_cons_of_ne_nil {α : Type} {c : α} {rest : List α} (h : rest ≠ []) :
    (c :: rest).getLast? = rest.getLast? := by
  cases rest with
  | nil => exact absurd rfl h
  | cons x xs => exact List.getLast?_cons_cons

theorem normNewlines_cons {c : Char} (hc : c ≠ '\r') (l : Str) :
    normNewlines (c :: l) = c :: normNewlines l := by
  rw [normNewlines.eq_def]
  split <;> simp_all

theorem normNewlines_cr_cons {c : Char} (hc : c ≠ '\n') (l : Str) :
    normNewlines ('\r' :: c :: l) = '\n' :: normNewlines (c :: l) := by
  rw [normNewlines.eq_def]
  split <;> (try simp_all) <;> tauto

theorem normNewlines_crnl (l : Str) :
    normNewlines ('\r' :: '\n' :: l) = '\n' :: normNewlines l := rfl

/-- Appending a final newline to a text not ending in `'\r'` commutes with
newline normalization. -/
theorem normNewlines_append_nl :
    ∀ (t : Str), t.getLast? ≠ some '\r' →
      normNewlines (t ++ ['\n']) = normNewlines t ++ ['\n'] := by
  intro t
  induction t with
  | nil => intro _; rfl
  | cons c rest ih =>
    intro h
    by_cases hc : c = '\r'
    · subst hc
      cases rest with
      | nil => exact absurd (show ('\r' :: ([] : Str)).getLast? = some '\r' by simp) h
      | cons c2 rest2 =>
        have h' : (c2 :: rest2).getLast? ≠ some '\r' := by
          rwa [List.getLast?_cons_cons] at h
        by_cases hc2 : c2 = '\n'
        · subst hc2
          rw [show (('\r' :: '\n' :: rest2) ++ ['\n'] : Str)
              = '\r' :: '\n' :: (rest2 ++ ['\n']) from rfl,
            normNewlines_crnl, normNewlines_crnl]
          have h4 := ih h'
          rw [show (('\n' :: rest2) ++ ['\n'] : Str) = '\n' :: (rest2 ++ ['\n']) from rfl,
            normNewlines_cons (by decide), normNewlines_cons (by decide)] at h4
          simp only [List.cons_append, List.cons.injEq] at h4 ⊢
          exact ⟨trivial, h4.2⟩
        · rw [show (('\r' :: c2 :: rest2) ++ ['\n'] : Str)
              = '\r' :: c2 :: (rest2 ++ ['\n']) from rfl,
            normNewlines_cr_cons hc2, normNewlines_cr_cons hc2]
          have h4 := ih h'
          rw [show ((c2 :: rest2) ++ ['\n'] : Str) = c2 :: (rest2 ++ ['\n']) from rfl] at h4
          rw [h4]
          rfl
    · rw [show ((c :: rest) ++ ['\n'] : Str) = c :: (rest ++ ['\n']) from rfl,
        normNewlines_cons hc, normNewlines_cons hc]
      cases rest with
      | nil => rfl
      | cons x xs =>
        have h' : (x :: xs).getLast? ≠ some '\r' := by
          rwa [List.getLast?_cons_cons] at h
        rw [ih h']
        rfl

/-- Newline normalization keeps a final character other than `'\r'`. -/
theorem normNewlines_getLast :
    ∀ (t : Str) (ch : Char), t.getLast? = some ch → ch ≠ '\r' →
      (normNewlines t).getLast? = some ch := by
  intro t
  induction t with
  | nil =>
    intro ch h _
    simp at h
  | cons c rest ih =>
    intro ch h hch
    by_cases hc : c = '\r'
    · subst hc
      cases rest with
      | nil =>
        simp at h
        exact absurd h.symm hch
      | cons c2 rest2 =>
        rw [List.getLast?_cons_cons] at h
        by_cases hc2 : c2 = '\n'
        · subst hc2
          rw [normNewlines_crnl]
          have hrec := ih ch h hch
          rwa [normNewlines_cons (by decide)] at hrec
        · rw [normNewlines_cr_cons hc2]
          have hrec := ih ch h hch
          rw [getLast?_cons_of_ne_nil]
          · exact hrec
          · intro hnil
            rw [hnil] at hrec
            simp at hrec
    · rw [normNewlines_cons hc]
      cases rest with
      | nil =>
        simp at h
        subst h
        rfl
      | cons x xs =>
        rw [List.getLast?_cons_cons] at h
        have hrec := ih ch h hch
        rw [getLast?_cons_of_ne_nil]
        · exact hrec
        · intro hnil
          rw [hnil] at hrec
          simp at hrec

theorem splitCRLF_ne_nil (s : Str) : splitCRLF s ≠ [] := by
  rw [splitCRLF.eq_def]
  split
  · simp
  · simp
  · simp
  · split <;> simp

theorem splitCRLF_crnl (l : Str) : splitCRLF ('\r' :: '\n' :: l) = [] :: splitCRLF l := rfl

theorem splitCRLF_nl (l : Str) : splitCRLF ('\n' :: l) = [] :: splitCRLF l := rfl

theorem splitCRLF_cons_ne {c : Char} {l : Str} (hc : c ≠ '\n')
    (hcr : ¬(c = '\r' ∧ l.head? = some '\n')) :
    ∃ h0 t0, splitCRLF l = h0 :: t0 ∧ splitCRLF (c :: l) = (c :: h0) :: t0 := by
  obtain ⟨h0, t0, hs⟩ : ∃ h0 t0, splitCRLF l = h0 :: t0 := by
    cases hsp : splitCRLF l with
    | nil => exact absurd hsp (splitCRLF_ne_nil l)
    | cons a b => exact ⟨a, b, rfl⟩
  refine ⟨h0, t0, hs, ?_⟩
  rw [splitCRLF.eq_def]
  split
  · simp_all
  · rename_i rest heq
    rw [List.cons.injEq] at heq
    exact absurd ⟨heq.1, by rw [heq.2]; rfl⟩ hcr
  · simp_all
  · rename_i c' rest hno1 hno2 heq
    rw [List.cons.injEq] at heq
    obtain ⟨rfl, rfl⟩ := heq
    rw [hs]

theorem splitNL_ne_nil (s : Str) : splitNL s ≠ [] := by
  rw [splitNL.eq_def]
  split
  · simp
  · simp
  · split <;> simp

theorem splitNL_nl (l : Str) : splitNL ('\n' :: l) = [] :: splitNL l := rfl

theorem splitNL_cons_ne {c : Char} {l : Str} (hc : c ≠ '\n') :
    ∃ h0 t0, splitNL l = h0 :: t0 ∧ splitNL (c :: l) = (c :: h0) :: t0 := by
  obtain ⟨h0, t0, hs⟩ : ∃ h0 t0, splitNL l = h0 :: t0 := by
    cases hsp : splitNL l with
    | nil => exact absurd hsp (splitNL_ne_nil l)
    | cons a b => exact ⟨a, b, rfl⟩
  refine ⟨h0, t0, hs, ?_⟩
  rw [splitNL.eq_def]
  split
  · simp_all
  · simp_all
  · rename_i c' rest hno heq
    rw [List.cons.injEq] at heq
    obtain ⟨rfl, rfl⟩ := heq
    rw [hs]

/-- Appending a final newline (after a text not ending in `'\r'`) appends
exactly one empty element to the `\r?\n` split. -/
theorem splitCRLF_append_nl :
    ∀ (t : Str), t.getLast? ≠ some '\r' →
      splitCRLF (t ++ ['\n']) = splitCRLF t ++ [[]] := by
  intro t
  induction t with
  | nil => intro _; rfl
  | cons c rest ih =>
    intro h
    by_cases hc : c = '\n'
    · subst hc
      rw [show (('\n' :: rest) ++ ['\n'] : Str) = '\n' :: (rest ++ ['\n']) from rfl,
        splitCRLF_nl, splitCRLF_nl]
      have h' : rest.getLast? ≠ some '\r' := by
        cases rest with
        | nil => simp
        | cons x xs => rwa [List.getLast?_cons_cons] at h
      rw [ih h']
      rfl
    · by_cases hcr : c = '\r'
      · subst hcr
        cases rest with
        | nil => exact absurd (show ('\r' :: ([] : Str)).getLast? = some '\r' by simp) h
        | cons c2 rest2 =>
          have h' : (c2 :: rest2).getLast? ≠ some '\r' := by
            rwa [List.getLast?_cons_cons] at h
          by_cases hc2 : c2 = '\n'
          · subst hc2
            rw [show (('\r' :: '\n' :: rest2) ++ ['\n'] : Str)
                = '\r' :: '\n' :: (rest2 ++ ['\n']) from rfl,
              splitCRLF_crnl, splitCRLF_crnl]
            have h4 := ih h'
            rw [show (('\n' :: rest2) ++ ['\n'] : Str) = '\n' :: (rest2 ++ ['\n']) from rfl,
              splitCRLF_nl, splitCRLF_nl, List.cons_append, List.cons.injEq] at h4
            rw [List.cons_append, List.cons.injEq]
            exact ⟨rfl, h4.2⟩
          · obtain ⟨h0, t0, hs0, hs1⟩ := splitCRLF_cons_ne (c := '\r') (l := c2 :: (rest2 ++ ['\n']))
              (by decide) (by simp [hc2])
            obtain ⟨h0', t0', hs0', hs1'⟩ := splitCRLF_cons_ne (c := '\r') (l := c2 :: rest2)
              (by decide) (by simp [hc2])
            rw [show (('\r' :: c2 :: rest2) ++ ['\n'] : Str)
                = '\r' :: (c2 :: (rest2 ++ ['\n'])) from rfl, hs1, hs1']
            have h4 := ih h'
            rw [show ((c2 :: rest2) ++ ['\n'] : Str) = c2 :: (rest2 ++ ['\n']) from rfl] at h4
            rw [hs0, hs0'] at h4
            rw [List.cons_append, List.cons.injEq] at h4
            obtain ⟨hh, ht⟩ := h4
            rw [hh, ht]
            rfl
      · obtain ⟨h0, t0, hs0, hs1⟩ := splitCRLF_cons_ne (c := c) (l := rest ++ ['\n'])
          hc (by simp [hcr])
        obtain ⟨h0', t0', hs0', hs1'⟩ := splitCRLF_cons_ne (c := c) (l := rest)
          hc (by simp [hcr])
        rw [show ((c :: rest) ++ ['\n'] : Str) = c :: (rest ++ ['\n']) from rfl, hs1, hs1']
        have h' : rest.getLast? ≠ some '\r' := by
          cases rest with
          | nil => simp
          | cons x xs => rwa [List.getLast?_cons_cons] at h
        have h4 := ih h'
        rw [hs0, hs0'] at h4
        rw [List.cons_append, List.cons.injEq] at h4
        obtain ⟨hh, ht⟩ := h4
        rw [hh, ht]
        rfl

/-- Appending a final newline appends one empty element to the `'\n'` split. -/
theorem splitNL_append_nl :
    ∀ (s : Str), splitNL (s ++ ['\n']) = splitNL s ++ [[]] := by
  intro s
  induction s with
  | nil => rfl
  | cons c rest ih =>
    by_cases hc : c = '\n'
    · subst hc
      rw [show (('\n' :: rest) ++ ['\n'] : Str) = '\n' :: (rest ++ ['\n']) from rfl,
        splitNL_nl, splitNL_nl, ih]
      rfl
    · obtain ⟨h0, t0, hs0, hs1⟩ := splitNL_cons_ne (c := c) (l := rest ++ ['\n']) hc
      obtain ⟨h0', t0', hs0', hs1'⟩ := splitNL_cons_ne (c := c) (l := rest) hc
      rw [show ((c :: rest) ++ ['\n'] : Str) = c :: (rest ++ ['\n']) from rfl, hs1, hs1']
      rw [hs0, hs0'] at ih
      rw [List.cons_append, List.cons.injEq] at ih
      rw [ih.1, ih.2]
      rfl

/-- A nonempty text not ending in `'\n'` splits (on `\r?\n`) into a list
whose last element is nonempty. -/
theorem splitCRLF_getLast_ne :
    ∀ (t : Str), t ≠ [] → t.getLast? ≠ some '\n' →
      (splitCRLF t).getLast? ≠ some [] := by
  intro t
  induction t with
  | nil => intro h _; exact absurd rfl h
  | cons c rest ih =>
    intro _ h2
    by_cases hrest : rest = []
    · subst hrest
      have hc : c ≠ '\n' := by
        intro hcontra
        exact h2 (by simp [hcontra])
      obtain ⟨h0, t0, hs0, hs1⟩ := splitCRLF_cons_ne (c := c) (l := [])
        hc (by simp)
      rw [hs1]
      have : splitCRLF ([] : Str) = [[]] := rfl
      rw [this] at hs0
      rw [List.cons.injEq] at hs0
      obtain ⟨rfl, rfl⟩ := hs0
      simp
    · have h2' : rest.getLast? ≠ some '\n' := by
        rwa [getLast?_cons_of_ne_nil hrest] at h2
      have ihrec := ih hrest h2'
      by_cases hc : c = '\n'
      · subst hc
        rw [splitCRLF_nl, getLast?_cons_of_ne_nil (splitCRLF_ne_nil rest)]
        exact ihrec
      · by_cases hcr : c = '\r'
        · subst hcr
          cases rest with
          | nil => exact absurd rfl hrest
          | cons c2 rest2 =>
            by_cases hc2 : c2 = '\n'
            · subst hc2
              rw [splitCRLF_crnl]
              rw [splitCRLF_nl, getLast?_cons_of_ne_nil (splitCRLF_ne_nil rest2)] at ihrec
              rw [getLast?_cons_of_ne_nil (splitCRLF_ne_nil rest2)]
              exact ihrec
            · obtain ⟨h0, t0, hs0, hs1⟩ := splitCRLF_cons_ne (c := '\r') (l := c2 :: rest2)
                (by decide) (by simp [hc2])
              rw [hs1]
              rw [hs0] at ihrec
              cases t0 with
              | nil => simp
              | cons z zs =>
                rw [List.getLast?_cons_cons]
                rwa [List.getLast?_cons_cons] at ihrec
        · obtain ⟨h0, t0, hs0, hs1⟩ := splitCRLF_cons_ne (c := c) (l := rest)
            hc (by simp [hcr])
          rw [hs1]
          rw [hs0] at ihrec
          cases t0 with
          | nil => simp
          | cons z zs =>
            rw [List.getLast?_cons_cons]
            rwa [List.getLast?_cons_cons] at ihrec

/-- A nonempty text not ending in `'\n'` splits (on `'\n'`) into a list
whose last element is nonempty. -/
theorem splitNL_getLast_ne :
    ∀ (s : Str), s ≠ [] → s.getLast? ≠ some '\n' →
      (splitNL s).getLast? ≠ some [] := by
  intro s
  induction s with
  | nil => intro h _; exact absurd rfl h
  | cons c rest ih =>
    intro _ h2
    by_cases hrest : rest = []
    · subst hrest
      have hc : c ≠ '\n' := by
        intro hcontra
        exact h2 (by simp [hcontra])
      obtain ⟨h0, t0, hs0, hs1⟩ := splitNL_cons_ne (c := c) (l := []) hc
      rw [hs1]
      have : splitNL ([] : Str) = [[]] := rfl
      rw [this] at hs0
      rw [List.cons.injEq] at hs0
      obtain ⟨rfl, rfl⟩ := hs0
      simp
    · have h2' : rest.getLast? ≠ some '\n' := by
        rwa [getLast?_cons_of_ne_nil hrest] at h2
      have ihrec := ih hrest h2'
      by_cases hc : c = '\n'
      · subst hc
        rw [splitNL_nl, getLast?_cons_of_ne_nil (splitNL_ne_nil rest)]
        exact ihrec
      · obtain ⟨h0, t0, hs0, hs1⟩ := splitNL_cons_ne (c := c) (l := rest) hc
        rw [hs1]
        rw [hs0] at ihrec
        cases t0 with
        | nil => simp
        | cons z zs =>
          rw [List.getLast?_cons_cons]
          rwa [List.getLast?_cons_cons] at ihrec

theorem pruneTrailingEmpty_eq_self {l : List Str} (h : l.getLast? ≠ some []) :
    pruneTrailingEmpty l = l := by
  unfold pruneTrailingEmpty
  rw [if_neg]
  rintro ⟨_, h2⟩
  exact h h2

theorem pruneTrailingEmpty_concat (l : List Str) :
    pruneTrailingEmpty (l ++ [[]]) = l := by
  unfold pruneTrailingEmpty
  rw [if_pos ⟨by simp, by simp [List.getLast?_concat]⟩, List.dropLast_concat]

/-- Diffing a bag against itself yields three empty lists. -/
theorem diffBags_self (b : Bag) : diffBags b b = ⟨[], [], []⟩ := by
  simp only [diffBags]
  have h1 : ((dedupFirst (bagKeys b ++ bagKeys b)).filterMap fun k =>
      if bagGet b k ≠ 0 ∧ bagGet b k = 0 then some (k, bagGet b k) else none) = [] := by
    rw [List.filterMap_eq_nil_iff]
    intro a _
    rw [if_neg]
    rintro ⟨hne, heq⟩
    exact hne heq
  have h2 : ((dedupFirst (bagKeys b ++ bagKeys b)).filterMap fun k =>
      if bagGet b k = 0 ∧ bagGet b k ≠ 0 then some (k, bagGet b k) else none) = [] := by
    rw [List.filterMap_eq_nil_iff]
    intro a _
    rw [if_neg]
    rintro ⟨heq, hne⟩
    exact hne heq
  have h3 : ((dedupFirst (bagKeys b ++ bagKeys b)).filterMap fun k =>
      if bagGet b k ≠ 0 ∧ bagGet b k ≠ 0 ∧ bagGet b k ≠ bagGet b k then
        some (⟨k, bagGet b k, bagGet b k, (bagGet b k : Int) - bagGet b k⟩ : FreqEntry)
      else none) = [] := by
    rw [List.filterMap_eq_nil_iff]
    intro a _
    rw [if_neg]
    rintro ⟨_, _, hne⟩
    exact hne rfl
  rw [h1, h2, h3]
  rfl

theorem lcsBT_self (a : List Str) :
    ∀ i, i ≤ a.length → lcsBT a a i i = a.take i
  | 0, _ => by rw [lcsBT, List.take_zero]
  | i + 1, hi => by
    have hia : i < a.length := hi
    rw [lcsBT, if_pos rfl, lcsBT_self a i (Nat.le_of_succ_le hi)]
    rw [List.take_succ, List.getElem?_eq_getElem hia, List.getD_eq_getElem a [] hia]
    rfl

/-- `lcs` of a sequence with itself is the sequence. -/
theorem lcs_self (a : List Str) : lcs a a = a := by
  unfold lcs
  rw [lcsBT_self a a.length le_rfl, List.take_length]

/-- On identical line sequences the walk stays in the context branch and
emits no hunks. -/
theorem diffLoop_self (A : List Str) :
    ∀ (fuel i : Nat), A.length - i < fuel →
      diffLoop A A A fuel i i i none = some [] := by
  intro fuel
  induction fuel with
  | zero =>
    intro i hlt
    omega
  | succ fuel ih =>
    intro i hlt
    rw [diffLoop.eq_def]
    simp only []
    by_cases hi : i < A.length
    · have hcond : i < A.length ∧ i < A.length ∧ i < A.length ∧ True ∧ True :=
        ⟨hi, hi, hi, trivial, trivial⟩
      rw [if_pos (Or.inl hi), if_pos hcond]
      simp only [Option.map_none']
      exact ih (i + 1) (by omega)
    · rw [if_neg (by tauto)]

/-- C3 (amended): for a nonempty text `t` whose last character is neither a
newline nor a carriage return, comparing `t` against `t ++ "\n"`: the
order-insensitive multiset comparison reports identical (the trailing empty
element is pruned), and the order-sensitive unified diff emits no hunks —
but the order-sensitive identity flag is false, because it is raw string
equality after newline normalization, which the extra `'\n'` breaks.
(As stated — identical in both modes — the claim is false: see the
counterexample.) -/
theorem trailing_newline_compare (t : Str) (o : CanonOpts)
    (hne : t ≠ []) (hlast : ∀ ch, t.getLast? = some ch → ch ≠ '\n' ∧ ch ≠ '\r') :
    (compareTextAsMultisets t (t ++ ['\n']) o).summary.identical = true ∧
    orderSensitiveIdentical t (t ++ ['\n']) = false ∧
    unifiedDiffHunks t (t ++ ['\n']) = some [] := by
  obtain ⟨ch, hch⟩ : ∃ ch, t.getLast? = some ch := by
    cases hl : t.getLast? with
    | none => exact absurd (List.getLast?_eq_none_iff.mp hl) hne
    | some c => exact ⟨c, rfl⟩
  obtain ⟨hn, hr⟩ := hlast ch hch
  have hlr : t.getLast? ≠ some '\r' := by
    rw [hch]
    simp [hr]
  have hln : t.getLast? ≠ some '\n' := by
    rw [hch]
    simp [hn]
  refine ⟨?_, ?_, ?_⟩
  · have hsplit : splitCRLF (t ++ ['\n']) = splitCRLF t ++ [[]] := splitCRLF_append_nl t hlr
    have hA : pruneTrailingEmpty (splitCRLF t) = splitCRLF t :=
      pruneTrailingEmpty_eq_self (splitCRLF_getLast_ne t hne hln)
    have hB : pruneTrailingEmpty (splitCRLF (t ++ ['\n'])) = splitCRLF t := by
      rw [hsplit, pruneTrailingEmpty_concat]
    simp only [compareTextAsMultisets, hA, hB, diffBags_self]
    rfl
  · unfold orderSensitiveIdentical
    rw [normNewlines_append_nl t hlr]
    simp
  · have hnorm := normNewlines_append_nl t hlr
    have hnl : (normNewlines t).getLast? = some ch := normNewlines_getLast t ch hch hr
    have hnn : normNewlines t ≠ [] := by
      intro hcontra
      rw [hcontra] at hnl
      simp at hnl
    have hlines : diffLines (t ++ ['\n']) = diffLines t := by
      unfold diffLines
      rw [hnorm, splitNL_append_nl, pruneTrailingEmpty_concat,
        pruneTrailingEmpty_eq_self (splitNL_getLast_ne _ hnn (by rw [hnl]; simp [hn]))]
    unfold unifiedDiffHunks
    rw [hlines]
    show diffLoop (diffLines t) (diffLines t) (lcs (diffLines t) (diffLines t))
      ((diffLines t).length + (diffLines t).length + 1) 0 0 0 none = some []
    rw [lcs_self]
    exact diffLoop_self (diffLines t) _ 0 (by omega)

/-- C3 is false as stated: for `t = "a"`, comparing `"a"` with `"a\n"`, the
multiset mode reports identical but the order-sensitive mode reports
differences (its identity flag is raw normalized-string equality). -/
theorem trailing_newline_not_identical_order_sensitive :
    (compareTextAsMultisets "a".toList ("a".toList ++ ['\n'])
        ⟨true, false, true⟩).summary.identical = true ∧
    orderSensitiveIdentical "a".toList ("a".toList ++ ['\n']) = false := by
  decide

/-- Witness for the amended C3 at the concrete input `t = "a"`. -/
theorem trailing_newline_compare_witness :
    ("a".toList ≠ [] ∧
      ∀ ch, "a".toList.getLast? = some ch → ch ≠ '\n' ∧ ch ≠ '\r') ∧
    ((compareTextAsMultisets "a".toList ("a".toList ++ ['\n'])
        ⟨true, false, true⟩).summary.identical = true ∧
      orderSensitiveIdentical "a".toList ("a".toList ++ ['\n']) = false ∧
      unifiedDiffHunks "a".toList ("a".toList ++ ['\n']) = some []) :=
  ⟨⟨by decide, fun ch h => by
      simp at h
      subst h
      exact ⟨by decide, by decide⟩⟩,
    trailing_newline_compare "a".toList ⟨true, false, true⟩ (by decide)
      (fun ch h => by
        simp at h
        subst h
        exact ⟨by decide, by decide⟩)⟩

/-! ## C7: XML record flattening is order-independent -/

theorem insertionSortLe_eq_of_perm {l1 l2 : List Str} (h : l1.Perm l2) :
    List.insertionSort (· ≤ ·) l1 = List.insertionSort (· ≤ ·) l2 := by
  apply List.eq_of_perm_of_sorted (r := fun a b : Str => a ≤ b)
  · exact ((List.perm_insertionSort _ l1).trans h).trans (List.perm_insertionSort _ l2).symm
  · exact List.sorted_insertionSort _ l1
  · exact List.sorted_insertionSort _ l2

/-- `getAttribute` is insensitive to attribute order when names are unique. -/
theorem getAttr_perm {attrs1 attrs2 : List (Str × Str)} (h : attrs1.Perm attrs2)
    (hnodup : (attrs1.map Prod.fst).Nodup) (name : Str) :
    getAttr attrs1 name = getAttr attrs2 name := by
  unfold getAttr
  cases h1 : attrs1.find? (fun a => a.1 = name) with
  | none =>
    cases h2 : attrs2.find? (fun a => a.1 = name) with
    | none => rfl
    | some e =>
      have hmem : e ∈ attrs1 := h.mem_iff.mpr (List.mem_of_find?_eq_some h2)
      have hpe := List.find?_some h2
      have := List.find?_eq_none.mp h1 e hmem
      exact absurd hpe this
  | some e =>
    have hmem1 : e ∈ attrs2 := h.mem_iff.mp (List.mem_of_find?_eq_some h1)
    have hpe := List.find?_some h1
    cases h2 : attrs2.find? (fun a => a.1 = name) with
    | none =>
      have := List.find?_eq_none.mp h2 e hmem1
      exact absurd hpe this
    | some e' =>
      have hmem2 : e' ∈ attrs1 := h.mem_iff.mpr (List.mem_of_find?_eq_some h2)
      have hpe' := List.find?_some h2
      have hkey : e.1 = e'.1 := by
        have he : e.1 = name := by simpa using hpe
        have he' : e'.1 = name := by simpa using hpe'
        rw [he, he']
      have : e = e' :=
        List.inj_on_of_nodup_map hnodup (List.mem_of_find?_eq_some h1) hmem2 hkey
      rw [this]

/-- The attribute entries of `flattenNode` are attribute-order-insensitive
when names are unique. -/
theorem attrEntries_perm (o : XmlOpts) (path : Str)
    {attrs1 attrs2 : List (Str × Str)} (h : attrs1.Perm attrs2)
    (hnodup : (attrs1.map Prod.fst).Nodup) :
    attrEntries o path attrs1 = attrEntries o path attrs2 := by
  unfold attrEntries
  cases o.includeAttributes
  · simp
  · simp only [if_true]
    rw [insertionSortLe_eq_of_perm (h.map Prod.fst)]
    apply List.map_congr_left
    intro name _
    rw [getAttr_perm h hnodup name]

/-- C7 part 1: reordering the attributes of a record element (with the
unique names guaranteed by well-formed XML) leaves its canonical string
unchanged. -/
theorem canonicalRecordString_attr_perm (o : XmlOpts) (n : Str)
    {attrs1 attrs2 : List (Str × Str)} (cs : List XNode)
    (h : attrs1.Perm attrs2) (hnodup : (attrs1.map Prod.fst).Nodup) :
    canonicalRecordString o (.elem n attrs1 cs) = canonicalRecordString o (.elem n attrs2 cs) := by
  have hparts : flattenChild o [] (.elem n attrs1 cs) = flattenChild o [] (.elem n attrs2 cs) := by
    rw [flattenChild, flattenChild, attrEntries_perm o _ h hnodup]
  have hheader : List.insertionSort (· ≤ ·) (attrs1.map (fun a => a.1 ++ '=' :: q a.2))
      = List.insertionSort (· ≤ ·) (attrs2.map (fun a => a.1 ++ '=' :: q a.2)) :=
    insertionSortLe_eq_of_perm (h.map _)
  simp only [canonicalRecordString]
  rw [hparts, hheader]

/-- Permuting siblings permutes the flattened `path=value` entries: each
child contributes a contiguous block and only the blocks are reordered. -/
theorem flattenChildren_perm (o : XmlOpts) (path : Str) {cs1 cs2 : List XNode}
    (h : cs1.Perm cs2) :
    (flattenChildren o path cs1).Perm (flattenChildren o path cs2) := by
  induction h with
  | nil => exact List.Perm.refl _
  | cons x _ ih =>
    rw [flattenChildren, flattenChildren]
    exact ih.append_left (flattenChild o path x)
  | swap x y l =>
    rw [flattenChildren, flattenChildren, flattenChildren, flattenChildren,
      ← List.append_assoc, ← List.append_assoc]
    exact (List.perm_append_comm).append_right _
  | trans _ _ ih1 ih2 => exact ih1.trans ih2

/-- A record's canonical string does not change when its children are
permuted: the flattened parts are sorted before being joined. -/
theorem canonicalRecordString_children_perm (o : XmlOpts) (n : Str)
    (attrs : List (Str × Str)) {cs1 cs2 : List XNode} (h : cs1.Perm cs2) :
    canonicalRecordString o (.elem n attrs cs1) = canonicalRecordString o (.elem n attrs cs2) := by
  have hparts : (flattenChild o [] (.elem n attrs cs1)).Perm
      (flattenChild o [] (.elem n attrs cs2)) := by
    rw [flattenChild, flattenChild]
    exact (flattenChildren_perm o _ h).append_left _
  simp only [canonicalRecordString]
  rw [insertionSortLe_eq_of_perm hparts]

theorem selectRecordsL_perm (sel : Str) {cs1 cs2 : List XNode} (h : cs1.Perm cs2) :
    (selectRecordsL sel cs1).Perm (selectRecordsL sel cs2) := by
  induction h with
  | nil => exact List.Perm.refl _
  | cons x _ ih =>
    rw [selectRecordsL, selectRecordsL]
    exact ih.append_left (selectRecords sel x)
  | swap x y l =>
    rw [selectRecordsL, selectRecordsL, selectRecordsL, selectRecordsL,
      ← List.append_assoc, ← List.append_assoc]
    exact (List.perm_append_comm).append_right _
  | trans _ _ ih1 ih2 => exact ih1.trans ih2

/-- C7 part 2: reordering sibling records under a parent permutes the list
of canonical record strings, so the multiset is unchanged. -/
theorem recordsToCanonicalStrings_sibling_perm (o : XmlOpts) (sel n : Str)
    (attrs : List (Str × Str)) {cs1 cs2 : List XNode} (h : cs1.Perm cs2) :
    (recordsToCanonicalStrings o sel (.elem n attrs cs1)).Perm
      (recordsToCanonicalStrings o sel (.elem n attrs cs2)) := by
  unfold recordsToCanonicalStrings
  rw [selectRecords, selectRecords, List.map_append, List.map_append]
  apply List.Perm.append
  · have hroot : canonicalRecordString o (.elem n attrs cs1)
        = canonicalRecordString o (.elem n attrs cs2) :=
      canonicalRecordString_children_perm o n attrs h
    split
    · simp [hroot]
    · simp
  · exact ((selectRecordsL_perm sel h).map _)

/-- C7: XML record flattening is order-independent.  Reordering a record's
attributes (unique names as in well-formed XML) leaves its canonical string
unchanged, and reordering sibling records only permutes the resulting list
of canonical strings, leaving the set/multiset of record strings the same. -/
theorem xml_flatten_order_independent (o : XmlOpts) (n sel : Str)
    (attrs1 attrs2 rootAttrs : List (Str × Str)) (cs cs1 cs2 : List XNode)
    (hattr : attrs1.Perm attrs2) (hnodup : (attrs1.map Prod.fst).Nodup)
    (hsib : cs1.Perm cs2) :
    canonicalRecordString o (.elem n attrs1 cs) = canonicalRecordString o (.elem n attrs2 cs) ∧
    (recordsToCanonicalStrings o sel (.elem n rootAttrs cs1)).Perm
      (recordsToCanonicalStrings o sel (.elem n rootAttrs cs2)) :=
  ⟨canonicalRecordString_attr_perm o n cs hattr hnodup,
    recordsToCanonicalStrings_sibling_perm o sel n rootAttrs hsib⟩

/-- Witness for C7 at a concrete record: attributes `a="1" b="2"` versus
`b="2" a="1"`, and siblings `<c/>` then text `y` versus the reverse. -/
theorem xml_flatten_order_independent_witness :
    ([((['a'] : Str), (['1'] : Str)), (['b'], ['2'])]).Perm [(['b'], ['2']), (['a'], ['1'])] ∧
    (([((['a'] : Str), (['1'] : Str)), (['b'], ['2'])]).map Prod.fst).Nodup ∧
    ([XNode.elem ['c'] [] [], XNode.text ['y']]).Perm [XNode.text ['y'], XNode.elem ['c'] [] []] ∧
    (canonicalRecordString defaultXmlOpts
        (.elem ['r'] [(['a'], ['1']), (['b'], ['2'])] [XNode.text ['x']])
      = canonicalRecordString defaultXmlOpts
        (.elem ['r'] [(['b'], ['2']), (['a'], ['1'])] [XNode.text ['x']]) ∧
    (recordsToCanonicalStrings defaultXmlOpts ['r']
        (.elem ['r'] [] [XNode.elem ['c'] [] [], XNode.text ['y']])).Perm
      (recordsToCanonicalStrings defaultXmlOpts ['r']
        (.elem ['r'] [] [XNode.text ['y'], XNode.elem ['c'] [] []]))) :=
  ⟨List.Perm.swap (['b'], ['2']) (['a'], ['1']) [],
   by decide,
   List.Perm.swap (XNode.text ['y']) (XNode.elem ['c'] [] []) [],
   xml_flatten_order_independent defaultXmlOpts ['r'] ['r']
     [(['a'], ['1']), (['b'], ['2'])] [(['b'], ['2']), (['a'], ['1'])] []
     [XNode.text ['x']] [XNode.elem ['c'] [] [], XNode.text ['y']]
     [XNode.text ['y'], XNode.elem ['c'] [] []]
     (List.Perm.swap (['b'], ['2']) (['a'], ['1']) [])
     (by decide)
     (List.Perm.swap (XNode.text ['y']) (XNode.elem ['c'] [] []) [])⟩
